import Mathlib

/-!
# Verification of the procurement-DPRI upload/report core

Shallow embedding of the repository's upload reconciliation pipeline and
read-side helpers, with theorems checking the specification's claims.

Modelling conventions, used throughout:
* JavaScript strings are Lean `String`s; `s.trim()` is modelled by `jsTrim`
  (drop ASCII whitespace from both ends), JS `Set` objects by `List String`
  with membership, and JS `Map` objects by association lists with
  last-write-wins insertion.
* JS numbers that the routes treat as integers (`z.number().int()`) are `Int`;
  other numeric cell values are idealized as exact rationals `ℚ` (the binary
  floating-point representation is not modelled).  `NaN`/non-finite numbers
  are the `none` of an `Option`.
* `new Date(string)` is implementation-defined outside the ISO format, so the
  date parser is a parameter `jsDate : String → Option Int` (none = Invalid
  Date, some t = a time value); everything proved about commits holds for
  every such parser.
* The persisted store is a list of records; Prisma `findMany` is `List.filter`
  on the `where` clause, and `createMany` appends its payload and reports its
  length (single-request semantics, as in the spec's concurrency model).
-/

namespace Dpri

/-- The three-valued inspection status used by the dashboard
(`lists-of-pos.tsx`, and the identical copy in the PO detail page). -/
inductive InspStatus where
  | complete
  | partialDelivery
  | notDelivered
deriving DecidableEq, Repr

/-- `getInspectionStatus` from `src/app/ui/dashboard/lists-of-pos.tsx`
(lines 12-19): `if (inspectedQty <= 0) return "Not Delivered";
if (requiredQty > 0 && inspectedQty >= requiredQty) return "Complete";
return "Partial";` -/
def getInspectionStatus (requiredQty inspectedQty : Int) : InspStatus :=
  if inspectedQty ≤ 0 then .notDelivered
  else if 0 < requiredQty ∧ requiredQty ≤ inspectedQty then .complete
  else .partialDelivery

/-! ## JS primitives: trim, string-to-number -/

/-- ASCII whitespace as the model of the characters `trim()` removes. -/
def jsWs (c : Char) : Bool := c = ' ' ∨ c = '\t' ∨ c = '\n' ∨ c = '\r'

/-- Model of JavaScript `String.prototype.trim`: drop whitespace from both
ends. -/
def jsTrim (s : String) : String :=
  ⟨((s.data.dropWhile jsWs).reverse.dropWhile jsWs).reverse⟩

/-- Numeric value of a list of decimal digit characters (most significant
first). -/
def digitsVal (cs : List Char) : Nat :=
  cs.foldl (fun a c => 10 * a + (c.toNat - '0'.toNat)) 0

/-- Exponent part of a JS numeric literal: optional sign then at least one
digit. -/
def parseExpPart (cs : List Char) : Option Int :=
  match cs with
  | '+' :: rest =>
      if rest ≠ [] ∧ rest.all Char.isDigit then some (digitsVal rest) else none
  | '-' :: rest =>
      if rest ≠ [] ∧ rest.all Char.isDigit then some (-(digitsVal rest : Int))
      else none
  | _ => if cs ≠ [] ∧ cs.all Char.isDigit then some (digitsVal cs) else none

/-- Unsigned part of a JS numeric string: `digits`, `digits.digits?`,
`.digits`, each with an optional `e`/`E` exponent; `Infinity` is non-finite,
collapsed to `none` like `NaN` (`normalizeMoney` treats the two alike). -/
def parseMagnitude (cs : List Char) : Option ℚ :=
  if cs = "Infinity".data then none
  else
    let ip := cs.takeWhile Char.isDigit
    let rest := cs.dropWhile Char.isDigit
    let finish : ℚ → List Char → Option ℚ := fun m tail =>
      match tail with
      | [] => some m
      | e :: etail =>
          if e = 'e' ∨ e = 'E' then
            (parseExpPart etail).map fun ex => m * (10 : ℚ) ^ ex
          else none
    match rest with
    | '.' :: rest2 =>
        let fp := rest2.takeWhile Char.isDigit
        let rest3 := rest2.dropWhile Char.isDigit
        if ip = [] ∧ fp = [] then none
        else finish ((digitsVal ip : ℚ) + (digitsVal fp : ℚ) / (10 : ℚ) ^ fp.length) rest3
    | _ => if ip = [] then none else finish (digitsVal ip : ℚ) rest

/-- Model of ECMAScript `ToNumber` on strings, idealized over exact
rationals: whitespace-trimmed, empty string is `0`, optional sign, decimal
literal with optional fraction and exponent; everything else (thousands
separators included) is `NaN`, i.e. `none`.  Hex/octal/binary literals are
out of the modelled domain and also map to `none`. -/
def jsToNumber (s : String) : Option ℚ :=
  match (jsTrim s).data with
  | [] => some 0
  | '+' :: rest => parseMagnitude rest
  | '-' :: rest => (parseMagnitude rest).map Neg.neg
  | cs => parseMagnitude cs

/-- Model of JavaScript `Math.round`: nearest integer, half toward `+∞`. -/
def jsMathRound (q : ℚ) : Int := ⌊q + 1 / 2⌋

/-- A JS value as seen by the spreadsheet parse routes: a cell is a string,
a (possibly non-finite) number, or null. `none` inside `num` is NaN/±Infinity. -/
inductive JsVal where
  | str (s : String)
  | num (q : Option ℚ)
  | nullv
deriving DecidableEq, Repr

/-- JS `Number(value)` on the values above. -/
def jsNumberOf (v : JsVal) : Option ℚ :=
  match v with
  | .str s => jsToNumber s
  | .num q => q
  | .nullv => some 0

/-- `normalizeMoney` from `src/app/api/upload-procured-meds/parse/route.ts`
(lines 76-81): `if (value == null || value === "") return null;
const numeric = Number(value); if (!Number.isFinite(numeric)) return numeric;
return Math.round(numeric * 100) / 100;`
Result `none` is the returned `null`; `some none` is a returned non-finite
number (the NaN passthrough); `some (some q)` a finite number. -/
def normalizeMoney (value : JsVal) : Option (Option ℚ) :=
  if value = .nullv ∨ value = .str "" then none
  else
    match jsNumberOf value with
    | none => some none
    | some q => some (some ((jsMathRound (q * 100) : ℚ) / 100))

/-! ## Data model

The two persisted tables, as the commit routes see them (dates are JS time
values, already parsed). -/

/-- A `ProcuredMed` row (purchase-order line item). Key: `(poNumber, itemNo)`. -/
structure ProcuredMed where
  poNumber : String
  itemNo : Int
  poDate : Option Int
  supplier : Option String
  modeOfProcurement : Option String
  genericName : Option String
  acquisitionCost : Option ℚ
  quantity : Option ℚ
  totalCost : Option ℚ
  brandName : Option String
  manufacturer : Option String
  deliveryStatus : Option String
  bidAttempt : Option ℚ
deriving DecidableEq, Repr

/-- An `Iar` row (inspection record). Key:
`(iarNumber, poNumber, itemNumber)`. -/
structure IarRecord where
  iarNumber : String
  dateOfInspection : Int
  poNumber : String
  itemNumber : Int
  inspectedQuantity : Int
  requisitioningOffice : Option String
  brand : Option String
  manufacturer : Option String
  batchLotNumber : Option String
  expirationDate : Option Int
deriving DecidableEq, Repr

/-! ## Distinct read endpoints (C9) -/

/-- Byte-lexicographic order on character lists: the model of the database's
`ORDER BY ... ASC` collation. -/
def charListLe : List Char → List Char → Bool
  | [], _ => true
  | _ :: _, [] => false
  | a :: as, b :: bs =>
      if a < b then true else if b < a then false else charListLe as bs

/-- The corresponding order on strings. -/
def strLe (a b : String) : Bool := charListLe a.data b.data

/-- `SELECT DISTINCT ... ORDER BY ... ASC` / Prisma `distinct` + `orderBy`:
the distinct values, sorted ascending. -/
def sqlDistinctAsc (vals : List String) : List String :=
  List.insertionSort (fun a b => strLe a b = true) vals.dedup

/-- The distinct purchase-order-number endpoint (`GET /api/po-numbers`):
`findMany(select poNumber, distinct, orderBy asc)` then
`.map(row => row.poNumber.trim()).filter(v => v.length > 0)`. -/
def poNumbersGET (store : List ProcuredMed) : List String :=
  ((sqlDistinctAsc (store.map (·.poNumber))).map (fun v => jsTrim v)).filter
    (fun v => 0 < v.length)

/-- The distinct procurement-mode endpoint
(`GET /api/modes-of-procurement`): raw SQL
`SELECT DISTINCT mode_of_procurement WHERE NOT NULL AND TRIM(..) <> ''
ORDER BY .. ASC`, then `.map(row => row.modeOfProcurement?.trim() ?? "")
.filter(v => v.length > 0)`. -/
def modesGET (store : List ProcuredMed) : List String :=
  let sel := ((store.map (·.modeOfProcurement)).filterMap id).filter
    (fun v => jsTrim v ≠ "")
  ((sqlDistinctAsc sel).map (fun v => jsTrim v)).filter (fun v => 0 < v.length)

/-- A stored line item whose text fields are already trimmed. -/
def cexPm1 : ProcuredMed :=
  ⟨"A", 1, none, none, some "A", none, none, none, none, none, none, none, none⟩

/-- A second line item: same values as `cexPm1` up to leading whitespace. -/
def cexPm2 : ProcuredMed :=
  ⟨" A", 2, none, none, some " A", none, none, none, none, none, none, none,
    none⟩

/-! ## Particulars parsing (C7)

`parseParticulars` and `normalizeExpiry` from
`src/app/api/upload-iar/parse/route.ts` (lines 79-150).  The regexes are
modelled by explicit leftmost-match scanners; `new Date(raw)` followed by
`.toISOString().slice(0, 10)` in `normalizeExpiry`'s fallback is the
parameter `jsd : String → Option String` (`none` = Invalid Date), since
non-ISO date parsing is implementation-defined. -/

/-- `cleanText` (lines 18-22): trim, empty becomes null. -/
def cleanText (value : Option String) : Option String :=
  match value with
  | none => none
  | some s => if jsTrim s = "" then none else some (jsTrim s)

/-- JS regex `\w`. -/
def isWordChar (c : Char) : Bool :=
  ('A' ≤ c ∧ c ≤ 'Z') ∨ ('a' ≤ c ∧ c ≤ 'z') ∨ ('0' ≤ c ∧ c ≤ '9') ∨ c = '_'

/-- JS regex `\s` (common characters). -/
def regexWs (c : Char) : Bool := c = ' ' ∨ c = '\t' ∨ c = '\n' ∨ c = '\r'

/-- Characters excluded from the label captures: `[^;,\n]`. -/
def notTerm (c : Char) : Bool := ¬ (c = ';' ∨ c = ',' ∨ c = '\n')

/-- Scan to the next `"`; returns (content before it, remainder after it). -/
def takeUntilQuote : List Char → Option (List Char × List Char)
  | [] => none
  | c :: rest =>
      if c = '"' then some ([], rest)
      else (takeUntilQuote rest).map (fun p => (c :: p.1, p.2))

/-- Leftmost match of `"([^"]+)"`: the first non-empty quoted substring. -/
def firstQuoted : List Char → Option (List Char)
  | [] => none
  | c :: rest =>
      if c = '"' then
        match takeUntilQuote rest with
        | some (content, _) =>
            if content = [] then firstQuoted rest else some content
        | none => firstQuoted rest
      else firstQuoted rest

/-- The `\s*([^;,\n]+)` tail after the label's colon, with the regex
backtracking between the whitespace star and the non-empty capture: if only
whitespace (or nothing) follows, the capture absorbs the last
non-newline whitespace character, if any. -/
def captureRest (afterColon : List Char) : Option (List Char) :=
  let w := afterColon.takeWhile regexWs
  let rest := afterColon.dropWhile regexWs
  let cap := rest.takeWhile notTerm
  if cap ≠ [] then some cap
  else
    match w.reverse.dropWhile (fun c => c = '\n') with
    | [] => none
    | c :: _ => some [c]

/-- Case-insensitive literal prefix match, returning the remainder. -/
def stripPrefixCI : List Char → List Char → Option (List Char)
  | [], cs => some cs
  | _ :: _, [] => none
  | l :: ls, c :: cs =>
      if l.toLower = c.toLower then stripPrefixCI ls cs else none

/-- Attempts `LABEL\.?\s*:\s*([^;,\n]+)` at the current position. -/
def matchLabelAt (label : List Char) (cs : List Char) : Option (List Char) :=
  match stripPrefixCI label cs with
  | none => none
  | some after =>
      let afterDot := match after with | '.' :: r => r | r => r
      match afterDot.dropWhile regexWs with
      | ':' :: afterColon => captureRest afterColon
      | _ => none

/-- Leftmost match of `\b(?:L1|L2|...)\.?\s*:\s*([^;,\n]+)` (alternatives in
order, one-character scan steps, word boundary before the label). -/
def scanLabeled (labels : List (List Char)) : Option Char → List Char →
    Option (List Char)
  | _, [] => none
  | prev, c :: rest =>
      let bOk := match prev with | none => true | some p => ¬ isWordChar p
      match (if bOk then labels.findSome? (fun l => matchLabelAt l (c :: rest))
        else none) with
      | some cap => some cap
      | none => scanLabeled labels (some c) rest

/-- `split(/\r?\n/)`. -/
def splitLines : List Char → List (List Char)
  | [] => [[]]
  | '\r' :: '\n' :: rest => [] :: splitLines rest
  | '\n' :: rest => [] :: splitLines rest
  | c :: rest =>
      match splitLines rest with
      | s :: segs => (c :: s) :: segs
      | [] => [[c]]

/-- Full-string `^(\d{1,2})\/(\d{4})$`, returning (month, year). -/
def monthYearFull (cs : List Char) : Option (Nat × Nat) :=
  let ds := cs.takeWhile Char.isDigit
  let rest := cs.dropWhile Char.isDigit
  if 1 ≤ ds.length ∧ ds.length ≤ 2 then
    match rest with
    | '/' :: ys =>
        if ys.length = 4 ∧ ys.all Char.isDigit then
          some (digitsVal ds, digitsVal ys)
        else none
    | _ => none
  else none

/-- Full-string `^\d{4}-\d{1,2}-\d{1,2}$`. -/
def ymdFull (cs : List Char) : Bool :=
  let y := cs.takeWhile Char.isDigit
  match cs.dropWhile Char.isDigit with
  | '-' :: rest1 =>
      let m := rest1.takeWhile Char.isDigit
      (match rest1.dropWhile Char.isDigit with
      | '-' :: rest2 =>
          let d := rest2.takeWhile Char.isDigit
          y.length = 4 && (1 ≤ m.length && m.length ≤ 2) &&
            (1 ≤ d.length && d.length ≤ 2) &&
            rest2.dropWhile Char.isDigit = []
      | _ => false)
  | _ => false

/-- The batch fallback predicate (lines 123-129): a line that contains a
digit, is entirely `[A-Za-z0-9-]` of length at least 5, and is not a
month/year or date token. -/
def likelyBatchLine (s : String) : Bool :=
  s.data.any Char.isDigit &&
  (5 ≤ s.data.length &&
    s.data.all (fun c =>
      ('A' ≤ c ∧ c ≤ 'Z') ∨ ('a' ≤ c ∧ c ≤ 'z') ∨ ('0' ≤ c ∧ c ≤ '9')
        ∨ c = '-')) &&
  !(monthYearFull s.data).isSome &&
  !ymdFull s.data

/-- True when a word boundary follows: end of input or a non-word char. -/
def boundaryAfter (rest : List Char) : Bool :=
  match rest with
  | [] => true
  | c :: _ => !isWordChar c

/-- Attempts `(0?[1-9]|1[0-2])\/\d{4}\b` at the current position
(alternatives in the regex's order). -/
def matchInlineMYAt (cs : List Char) : Option (List Char) :=
  let tailYear : List Char → Option (List Char) := fun rest =>
    let ys := rest.takeWhile Char.isDigit
    if ys.length = 4 ∧ boundaryAfter (rest.drop 4) then
      some (ys.take 4)
    else none
  match cs with
  | '0' :: d :: '/' :: rest =>
      if '1' ≤ d ∧ d ≤ '9' then
        (tailYear rest).map (fun ys => '0' :: d :: '/' :: ys)
      else none
  | d :: '/' :: rest =>
      if '1' ≤ d ∧ d ≤ '9' then
        (tailYear rest).map (fun ys => d :: '/' :: ys)
      else
        none
  | '1' :: d :: '/' :: rest =>
      if '0' ≤ d ∧ d ≤ '2' then
        (tailYear rest).map (fun ys => '1' :: d :: '/' :: ys)
      else none
  | _ => none

/-- Leftmost match of `\b(0?[1-9]|1[0-2])\/\d{4}\b`. -/
def scanInlineMY : Option Char → List Char → Option (List Char)
  | _, [] => none
  | prev, c :: rest =>
      let bOk := match prev with | none => true | some p => ¬ isWordChar p
      match (if bOk then matchInlineMYAt (c :: rest) else none) with
      | some t => some t
      | none => scanInlineMY (some c) rest

/-- Attempts `\d{4}-\d{1,2}-\d{1,2}\b` at the current position. -/
def matchInlineYmdAt (cs : List Char) : Option (List Char) :=
  let y := cs.takeWhile Char.isDigit
  if y.length ≠ 4 then none
  else match cs.drop 4 with
    | '-' :: rest1 =>
        let m := rest1.takeWhile Char.isDigit
        if 1 ≤ m.length ∧ m.length ≤ 2 then
          match rest1.drop m.length with
          | '-' :: rest2 =>
              let d := rest2.takeWhile Char.isDigit
              if (1 ≤ d.length ∧ d.length ≤ 2) ∧ boundaryAfter (rest2.drop d.length) then
                some (y ++ '-' :: m ++ '-' :: d)
              else none
          | _ => none
        else none
    | _ => none

/-- Leftmost match of `\b\d{4}-\d{1,2}-\d{1,2}\b`. -/
def scanInlineYmd : Option Char → List Char → Option (List Char)
  | _, [] => none
  | prev, c :: rest =>
      let bOk := match prev with | none => true | some p => ¬ isWordChar p
      match (if bOk then matchInlineYmdAt (c :: rest) else none) with
      | some t => some t
      | none => scanInlineYmd (some c) rest

/-- Zero-padded decimal rendering of width `w`. -/
def padNum (w : Nat) (n : Nat) : String :=
  ⟨List.replicate (w - (Nat.repr n).length) '0' ++ (Nat.repr n).data⟩

/-- `new Date(Date.UTC(year, month-1, 1)).toISOString().slice(0,10)` for
`1 ≤ month ≤ 12` and a four-digit `year`: JS maps years 0-99 to 1900-1999. -/
def utcIsoOfMonthYear (month year : Nat) : String :=
  let y := if year ≤ 99 then 1900 + year else year
  padNum 4 y ++ "-" ++ padNum 2 month ++ "-01"

/-- `normalizeExpiry` (lines 79-100): trim; a full `M/YYYY` with a valid
month becomes the first of that month (UTC); otherwise fall back to the
implementation-defined generic parse `jsd`; null when that fails. -/
def normalizeExpiry (jsd : String → Option String) (value : Option String) :
    Option String :=
  match value with
  | none => none
  | some v =>
      let raw := jsTrim v
      if raw = "" then none
      else
        match monthYearFull raw.data with
        | some (m, y) =>
            if 1 ≤ m ∧ m ≤ 12 then some (utcIsoOfMonthYear m y)
            else jsd raw
        | none => jsd raw

/-- The result record of `parseParticulars`. -/
structure Particulars where
  brand : Option String
  batchLotNumber : Option String
  expirationDate : Option String
deriving DecidableEq, Repr

/-- `parseParticulars` (lines 102-150). -/
def parseParticulars (jsd : String → Option String) (raw : Option String) :
    Particulars :=
  match cleanText raw with
  | none => ⟨none, none, none⟩
  | some particulars =>
      let pcs := particulars.data
      let brand := (firstQuoted pcs).map (fun cs => jsTrim ⟨cs⟩)
      let lines := ((splitLines pcs).map (fun l => jsTrim ⟨l⟩)).filter
        (fun s => s ≠ "")
      let batchLabeled := (scanLabeled
        ["B/L".data, "Batch".data, "Lot".data] none pcs).map
        (fun cs => jsTrim ⟨cs⟩)
      let batchRaw :=
        if batchLabeled = none ∨ batchLabeled = some "" then
          lines.find? likelyBatchLine
        else batchLabeled
      let expiryLabeled := (scanLabeled
        ["Exp".data, "Expiry".data, "Expiration".data] none pcs).map
        (fun cs => jsTrim ⟨cs⟩)
      let expiryRaw :=
        if expiryLabeled = none ∨ expiryLabeled = some "" then
          match scanInlineMY none pcs with
          | some t => some (⟨t⟩ : String)
          | none => (scanInlineYmd none pcs).map (fun t => (⟨t⟩ : String))
        else expiryLabeled
      ⟨brand, batchRaw, normalizeExpiry jsd expiryRaw⟩

/-- A conforming generic date parse that rejects every non-ISO string it is
offered (ECMAScript leaves such strings implementation-defined). -/
def jsdRejecting : String → Option String := fun _ => none

/-! ## Parse response assembly (C10)

Both parse routes end with the same loop: `mapped.forEach((row, i) => ...)`
runs `RowSchema.safeParse` on each mapped row, pushing `{index: i + 2, message}`
on failure and the parsed row on success, and the response is
`{totalRows, validRowsCount, errors, preview: validRows.slice(0, 200),
allValidRows: validRows}`.  The zod check is the parameter `P`, the error
message construction the parameter `msg`. -/

/-- The `forEach` loop of the parse routes, position-indexed from `i`. -/
def partitionLoop {ρ : Type} (P : ρ → Bool) (msg : ρ → String) :
    List ρ → Nat → List (Nat × String) × List ρ
  | [], _ => ([], [])
  | r :: rs, i =>
      let rest := partitionLoop P msg rs (i + 1)
      if P r then (rest.1, r :: rest.2)
      else ((i + 2, msg r) :: rest.1, rest.2)

/-- The parse-route response (sheet name omitted: it is not about rows). -/
structure ParseResp (ρ : Type) where
  totalRows : Nat
  validRowsCount : Nat
  errors : List (Nat × String)
  preview : List ρ
  allValidRows : List ρ
deriving DecidableEq, Repr

/-- Response assembly of both parse routes. -/
def parseResponse {ρ : Type} (P : ρ → Bool) (msg : ρ → String)
    (mapped : List ρ) : ParseResp ρ :=
  let res := partitionLoop P msg mapped 0
  ⟨mapped.length, res.2.length, res.1, res.2.take 200, res.2⟩

/-- A mapped row of the IAR parse route, after extraction/normalization. -/
structure IarParsedRow where
  iarNumber : String
  dateOfInspection : Option String
  poNumber : String
  itemNumber : Option Int
  inspectedQuantity : Option Int
  requisitioningOffice : Option String
  brand : Option String
  batchLotNumber : Option String
  expirationDate : Option String
deriving DecidableEq, Repr

/-- The IAR `RowSchema` checks (`upload-iar/parse/route.ts` lines 5-16):
required non-empty strings, non-negative integers; the optional nullable
fields always pass. -/
def iarRowValid (r : IarParsedRow) : Bool :=
  r.iarNumber != "" &&
  (match r.dateOfInspection with | some d => d != "" | none => false) &&
  r.poNumber != "" &&
  (match r.itemNumber with | some n => decide (0 ≤ n) | none => false) &&
  (match r.inspectedQuantity with | some n => decide (0 ≤ n) | none => false)

/-- A valid concrete mapped IAR row. -/
def cexIarRowOk : IarParsedRow :=
  ⟨"IAR-1", some "2024-01-02", "PO-1", some 1, some 5, none, none, none, none⟩

/-- An invalid concrete mapped IAR row (missing item number). -/
def cexIarRowBad : IarParsedRow :=
  ⟨"IAR-2", some "2024-01-02", "PO-1", none, some 5, none, none, none, none⟩

/-! ## Commit pipelines: shared string-key machinery

Both commit routes build composite-key strings with `::` as separator
(`keyOf`), collect them in JS `Set`s, and the IAR route re-parses
`poNumber::itemNumber` strings with `split("::")` and `Number(...)`.  JS
renders an integer-valued number in decimal, i.e. `Int.repr`. -/

/-- `` `${poNumber}::${itemNo}` `` of the procured-meds commit route. -/
def pmKey (poNumber : String) (itemNo : Int) : String :=
  poNumber ++ "::" ++ itemNo.repr

/-- `` `${iarNumber}::${poNumber}::${itemNumber}` `` of the IAR commit
route. -/
def iarKey (iarNumber poNumber : String) (itemNumber : Int) : String :=
  iarNumber ++ "::" ++ poNumber ++ "::" ++ itemNumber.repr

/-- JS `split("::")` (leftmost scan, two-character separator). -/
def jsSplitCC : List Char → List (List Char)
  | [] => [[]]
  | [c] => [[c]]
  | c :: c2 :: rest =>
      if c = ':' ∧ c2 = ':' then [] :: jsSplitCC rest
      else
        match jsSplitCC (c2 :: rest) with
        | s :: segs => (c :: s) :: segs
        | [] => [[c]]

/-- JS `Number(fragment)` restricted to what the key fragments can be:
the empty string is `0`, an optionally negated digit string is that
integer; everything else (`NaN` or a non-integer) is `none`, which matches
no stored integer column. -/
def jsNumberInt (s : String) : Option Int :=
  if s.data = [] then some 0
  else if s.data.head? = some '-' then
    if s.data.tail ≠ [] ∧ s.data.tail.all Char.isDigit then
      some (-(digitsVal s.data.tail : Int))
    else none
  else if s.data.all Char.isDigit then some (digitsVal s.data : Int)
  else none

/-- `row.manufacturer?.trim() || null`: trim, the empty string collapsing to
null. -/
def trimOrNull (v : Option String) : Option String :=
  match v with
  | none => none
  | some s => if jsTrim s = "" then none else some (jsTrim s)

/-- The `chunk` helper of both commit routes, fuel-indexed. -/
def chunkGo (n : Nat) : Nat → List α → List (List α)
  | _, [] => []
  | 0, _ => []
  | f + 1, l => l.take n :: chunkGo n f (l.drop n)

/-- `chunk(items, n)`: slices of size `n` in order. -/
def chunkList (n : Nat) (l : List α) : List (List α) := chunkGo n l.length l

/-! ## Commit pipelines: data types and helpers -/

/-- Ledger entry result. -/
inductive LogResult where
  | inserted
  | skipped
deriving DecidableEq, Repr

/-- Ledger entry reason. -/
inductive SkipReason where
  | alreadyExists
  | duplicateInUpload
deriving DecidableEq, Repr

/-- Full-string `^\d{4}-\d{2}-\d{2}$` (the strict commit-time shape test). -/
def ymd10 (cs : List Char) : Bool :=
  match cs with
  | [a, b, c, d, e, f, g, h, i, j] =>
      a.isDigit && b.isDigit && c.isDigit && d.isDigit && e = '-' &&
      f.isDigit && g.isDigit && h = '-' && i.isDigit && j.isDigit
  | _ => false

/-- `parseDateOnly` of the IAR commit route (`src/unnamed/part_010` lines
84-91): trim; empty is null; an ISO-shaped string is parsed as local
midnight, anything else through the generic `new Date` — both modelled by
the parameter `jsDate` (`none` = Invalid Date). -/
def parseDateOnly (jsDate : String → Option Int) (value : String) :
    Option Int :=
  let trimmed := jsTrim value
  if trimmed = "" then none
  else if ymd10 trimmed.data then jsDate (trimmed ++ "T00:00:00")
  else jsDate trimmed

/-- `parsePoDate` of the procured-meds commit route (lines 60-70): same,
but null/empty input yields null instead of an error. -/
def parsePoDate (jsDate : String → Option Int) (value : Option String) :
    Option Int :=
  match value with
  | none => none
  | some s =>
      if s = "" then none
      else
        let trimmed := jsTrim s
        if trimmed = "" then none
        else if ymd10 trimmed.data then jsDate (trimmed ++ "T00:00:00")
        else jsDate trimmed

/-- `toMoney2` of the procured-meds commit route (lines 28-31). -/
def toMoney2 (v : Option ℚ) : Option ℚ :=
  v.map (fun q => ((jsMathRound (q * 100) : ℚ) / 100))

/-- The intra-batch dedup loop shared by both commit routes: walk the rows
in order against a seen-key set; returns (duplicate rows, kept rows), each
in input order. -/
def dedupScan {ρ : Type} (key : ρ → String) :
    List ρ → List String → List ρ × List ρ
  | [], _ => ([], [])
  | r :: rs, seen =>
      if seen.contains (key r) then
        ((r :: (dedupScan key rs seen).1), (dedupScan key rs seen).2)
      else
        ((dedupScan key rs (key r :: seen)).1,
          r :: (dedupScan key rs (key r :: seen)).2)

/-- JS `Set.add`, insertion-ordered. -/
def uniqueAdd (seen : List String) (k : String) : List String :=
  if seen.contains k then seen else seen ++ [k]

/-! ### IAR commit route (`src/unnamed/part_010`) -/

/-- A commit-request row after zod validation (`CommitSchema`). -/
structure IarInput where
  iarNumber : String
  dateOfInspection : String
  poNumber : String
  itemNumber : Int
  inspectedQuantity : Int
  requisitioningOffice : Option String
  brand : Option String
  batchLotNumber : Option String
  expirationDate : Option String
deriving DecidableEq, Repr

/-- `PreparedRow` of the IAR commit route. -/
structure IarPrepared where
  iarNumber : String
  dateOfInspection : Int
  poNumber : String
  itemNumber : Int
  inspectedQuantity : Int
  requisitioningOffice : Option String
  brand : Option String
  batchLotNumber : Option String
  expirationDate : Option Int
  rowIndex : Nat
deriving DecidableEq, Repr

/-- An internal `CommitLog` entry of the IAR route. -/
structure IarLog where
  rowIndex : Nat
  iarNumber : String
  poNumber : String
  itemNumber : Int
  result : LogResult
  reason : Option SkipReason
deriving DecidableEq, Repr

/-- A returned ledger entry (`rowIndex` stripped). -/
structure IarLogOut where
  iarNumber : String
  poNumber : String
  itemNumber : Int
  result : LogResult
  reason : Option SkipReason
deriving DecidableEq, Repr

/-- The IAR commit response body. -/
structure IarCommitResp where
  insertedCount : Nat
  totalReceived : Nat
  skippedDuplicates : Nat
  logs : List IarLogOut
deriving DecidableEq, Repr

/-- Outcome of the IAR commit route: a 400 with a message, or a 200. -/
inductive IarCommitOut where
  | badRequest (message : String)
  | ok (resp : IarCommitResp)
deriving DecidableEq, Repr

/-- The 400 message for a bad inspection date. -/
def iarBadInspMsg (raw : String) (idx : Nat) : String :=
  "Invalid inspection date at row " ++ Nat.repr (idx + 2) ++ ": " ++ raw

/-- The 400 message for a bad expiration date. -/
def iarBadExpMsg (raw : String) (idx : Nat) : String :=
  "Invalid expiration date at row " ++ Nat.repr (idx + 2) ++ ": " ++ raw

/-- Builds the `PreparedRow` (trims the key strings). -/
def mkIarPrepared (r : IarInput) (d : Int) (ed : Option Int) (idx : Nat) :
    IarPrepared :=
  ⟨jsTrim r.iarNumber, d, jsTrim r.poNumber, r.itemNumber,
    r.inspectedQuantity, r.requisitioningOffice, r.brand, r.batchLotNumber,
    ed, idx⟩

/-- The mapped-row loop of the IAR commit route (lines 121-155): strict date
parsing with fail-fast 400s. -/
def prepareIarGo (jsDate : String → Option Int) :
    List IarInput → Nat → Except String (List IarPrepared)
  | [], _ => .ok []
  | r :: rs, idx =>
      match parseDateOnly jsDate r.dateOfInspection with
      | none => .error (iarBadInspMsg r.dateOfInspection idx)
      | some d =>
          match r.expirationDate with
          | some e =>
              if e = "" then
                (prepareIarGo jsDate rs (idx + 1)).map
                  (fun ms => mkIarPrepared r d none idx :: ms)
              else
                match parseDateOnly jsDate e with
                | none => .error (iarBadExpMsg e idx)
                | some ed =>
                    (prepareIarGo jsDate rs (idx + 1)).map
                      (fun ms => mkIarPrepared r d (some ed) idx :: ms)
          | none =>
              (prepareIarGo jsDate rs (idx + 1)).map
                (fun ms => mkIarPrepared r d none idx :: ms)

/-- `keyOf` on a prepared IAR row. -/
def iarKeyOfPrepared (r : IarPrepared) : String :=
  iarKey r.iarNumber r.poNumber r.itemNumber

/-- `keyOf` on a stored IAR record. -/
def iarKeyOfRecord (s : IarRecord) : String :=
  iarKey s.iarNumber s.poNumber s.itemNumber

/-- The `uniquePoItem` set (insertion-ordered). -/
def uniquePoItems (deduped : List IarPrepared) : List String :=
  deduped.foldl (fun acc r => uniqueAdd acc (pmKey r.poNumber r.itemNumber)) []

/-- `const [poNumber, itemNumber] = key.split("::")` plus
`Number(itemNumber)`. -/
def splitPoItemPair (k : String) : String × Option Int :=
  match jsSplitCC k.data with
  | p :: i :: _ => (⟨p⟩, jsNumberInt ⟨i⟩)
  | [p] => (⟨p⟩, none)
  | [] => ("", none)

/-- The manufacturer `findMany` `where` clause for one pair. -/
def pairMatchesPm (pr : String × Option Int) (s : ProcuredMed) : Bool :=
  pr.1 = s.poNumber && pr.2 = some s.itemNo

/-- The chunked manufacturer lookup (lines 179-211): an association list
whose later writes win (`Map.set`), keyed by `` `${poNumber}::${itemNo}` ``
of the found rows. -/
def buildManuMap (pmStore : List ProcuredMed)
    (pairs : List (String × Option Int)) : List (String × Option String) :=
  (chunkList 500 pairs).foldl (fun m group =>
    (pmStore.filter (fun s => group.any (fun pr => pairMatchesPm pr s))).foldl
      (fun m2 srow =>
        (pmKey srow.poNumber srow.itemNo, trimOrNull srow.manufacturer) :: m2)
      m) []

/-- The chunked existing-key lookup (lines 213-234), as the list of `keyOf`
strings of the matching stored records. -/
def collectExistingIar (iarStore : List IarRecord)
    (deduped : List IarPrepared) : List String :=
  (chunkList 500 deduped).foldl (fun acc group =>
    acc ++ (iarStore.filter (fun s => group.any (fun r =>
      r.iarNumber = s.iarNumber && r.poNumber = s.poNumber &&
        r.itemNumber = s.itemNumber))).map iarKeyOfRecord) []

/-- The insert payload record for one kept row (lines 236-252), manufacturer
attached from the lookup map (`?? null`). -/
def iarToRecord (manu : List (String × Option String)) (r : IarPrepared) :
    IarRecord :=
  ⟨r.iarNumber, r.dateOfInspection, r.poNumber, r.itemNumber,
    r.inspectedQuantity, r.requisitioningOffice, r.brand,
    (List.lookup (pmKey r.poNumber r.itemNumber) manu).join,
    r.batchLotNumber, r.expirationDate⟩

/-- The `duplicate_in_upload` ledger entry. -/
def mkIarDupLog (r : IarPrepared) : IarLog :=
  ⟨r.rowIndex, r.iarNumber, r.poNumber, r.itemNumber, .skipped,
    some .duplicateInUpload⟩

/-- The ledger entry of a kept row (lines 254-267). -/
def mkIarKeptLog (existing : List String) (r : IarPrepared) : IarLog :=
  if existing.contains (iarKeyOfPrepared r) then
    ⟨r.rowIndex, r.iarNumber, r.poNumber, r.itemNumber, .skipped,
      some .alreadyExists⟩
  else
    ⟨r.rowIndex, r.iarNumber, r.poNumber, r.itemNumber, .inserted, none⟩

/-- `logs.sort((a, b) => a.rowIndex - b.rowIndex)`. -/
def sortIarLogs (logs : List IarLog) : List IarLog :=
  List.insertionSort (fun a b => a.rowIndex ≤ b.rowIndex) logs

/-- Strips `rowIndex` for the response. -/
def stripIarLog (l : IarLog) : IarLogOut :=
  ⟨l.iarNumber, l.poNumber, l.itemNumber, l.result, l.reason⟩

/-- `POST /api/upload-iar/commit` (`src/unnamed/part_010`), from the zod
result onward, with the resulting IAR store (`createMany` appends its
payload and reports its length). -/
def iarCommitPOST (jsDate : String → Option Int)
    (pmStore : List ProcuredMed) (iarStore : List IarRecord)
    (rows : List IarInput) : IarCommitOut × List IarRecord :=
  match prepareIarGo jsDate rows 0 with
  | .error msg => (.badRequest msg, iarStore)
  | .ok mapped =>
      let dk := dedupScan iarKeyOfPrepared mapped []
      let manu := buildManuMap pmStore ((uniquePoItems dk.2).map splitPoItemPair)
      let existing := collectExistingIar iarStore dk.2
      let dataToInsert := (dk.2.filter
        (fun r => !existing.contains (iarKeyOfPrepared r))).map (iarToRecord manu)
      let logs := dk.1.map mkIarDupLog ++ dk.2.map (mkIarKeptLog existing)
      let sorted := sortIarLogs logs
      let skipped := (sorted.filter (fun l => l.result = .skipped)).length
      (.ok ⟨dataToInsert.length, mapped.length, skipped, sorted.map stripIarLog⟩,
        iarStore ++ dataToInsert)

/-! ### Procured-meds commit route
(`src/app/api/upload-procured-meds/commit/route.ts`) -/

/-- A commit-request row after zod validation. -/
structure PmInput where
  poNumber : String
  itemNo : Int
  poDate : Option String
  supplier : Option String
  modeOfProcurement : Option String
  genericName : Option String
  acquisitionCost : Option ℚ
  quantity : Option ℚ
  totalCost : Option ℚ
  brandName : Option String
  manufacturer : Option String
  deliveryStatus : Option String
  bidAttempt : Option ℚ
deriving DecidableEq, Repr

/-- `PreparedRow` of the procured-meds commit route. -/
structure PmPrepared where
  poNumber : String
  itemNo : Int
  poDate : Option Int
  supplier : Option String
  modeOfProcurement : Option String
  genericName : Option String
  acquisitionCost : Option ℚ
  quantity : Option ℚ
  totalCost : Option ℚ
  brandName : Option String
  manufacturer : Option String
  deliveryStatus : Option String
  bidAttempt : Option ℚ
  rowIndex : Nat
deriving DecidableEq, Repr

/-- An internal `CommitLog` entry of the procured-meds route. -/
structure PmLog where
  rowIndex : Nat
  poNumber : String
  itemNo : Int
  result : LogResult
  reason : Option SkipReason
deriving DecidableEq, Repr

/-- A returned ledger entry (`rowIndex` stripped by the response `map`). -/
structure PmLogOut where
  poNumber : String
  itemNo : Int
  result : LogResult
  reason : Option SkipReason
deriving DecidableEq, Repr

/-- The procured-meds commit response body. -/
structure PmCommitResp where
  insertedCount : Nat
  totalReceived : Nat
  skippedDuplicates : Nat
  logs : List PmLogOut
deriving DecidableEq, Repr

/-- The mapped row (lines 92-107). -/
def mkPmPrepared (jsDate : String → Option Int) (r : PmInput) (idx : Nat) :
    PmPrepared :=
  ⟨r.poNumber, r.itemNo, parsePoDate jsDate r.poDate, r.supplier,
    r.modeOfProcurement, r.genericName, toMoney2 r.acquisitionCost,
    r.quantity, toMoney2 r.totalCost, r.brandName, r.manufacturer,
    r.deliveryStatus, r.bidAttempt, idx⟩

/-- `rows.map((r, idx) => ...)`. -/
def preparePm (jsDate : String → Option Int) :
    List PmInput → Nat → List PmPrepared
  | [], _ => []
  | r :: rs, idx => mkPmPrepared jsDate r idx :: preparePm jsDate rs (idx + 1)

/-- `keyOf` on a prepared procured-meds row. -/
def pmKeyOfPrepared (r : PmPrepared) : String := pmKey r.poNumber r.itemNo

/-- `keyOf` on a stored procured-meds record. -/
def pmKeyOfRecord (s : ProcuredMed) : String := pmKey s.poNumber s.itemNo

/-- The chunked existing-key lookup (lines 129-144). -/
def collectExistingPm (pmStore : List ProcuredMed)
    (deduped : List PmPrepared) : List String :=
  (chunkList 500 deduped).foldl (fun acc group =>
    acc ++ (pmStore.filter (fun s => group.any (fun r =>
      r.poNumber = s.poNumber && r.itemNo = s.itemNo))).map pmKeyOfRecord) []

/-- The insert payload record for one kept row (lines 146-162). -/
def pmToRecord (r : PmPrepared) : ProcuredMed :=
  ⟨r.poNumber, r.itemNo, r.poDate, r.supplier, r.modeOfProcurement,
    r.genericName, r.acquisitionCost, r.quantity, r.totalCost, r.brandName,
    r.manufacturer, r.deliveryStatus, r.bidAttempt⟩

/-- The `duplicate_in_upload` ledger entry. -/
def mkPmDupLog (r : PmPrepared) : PmLog :=
  ⟨r.rowIndex, r.poNumber, r.itemNo, .skipped, some .duplicateInUpload⟩

/-- The ledger entry of a kept row (lines 164-173). -/
def mkPmKeptLog (existing : List String) (r : PmPrepared) : PmLog :=
  if existing.contains (pmKeyOfPrepared r) then
    ⟨r.rowIndex, r.poNumber, r.itemNo, .skipped, some .alreadyExists⟩
  else
    ⟨r.rowIndex, r.poNumber, r.itemNo, .inserted, none⟩

/-- `commitLogs.sort((a, b) => a.rowIndex - b.rowIndex)`. -/
def sortPmLogs (logs : List PmLog) : List PmLog :=
  List.insertionSort (fun a b => a.rowIndex ≤ b.rowIndex) logs

/-- Strips `rowIndex` for the response. -/
def stripPmLog (l : PmLog) : PmLogOut :=
  ⟨l.poNumber, l.itemNo, l.result, l.reason⟩

/-- `POST /api/upload-procured-meds/commit`, from the zod result onward. -/
def pmCommitPOST (jsDate : String → Option Int)
    (pmStore : List ProcuredMed) (rows : List PmInput) :
    PmCommitResp × List ProcuredMed :=
  let mapped := preparePm jsDate rows 0
  let dk := dedupScan pmKeyOfPrepared mapped []
  let existing := collectExistingPm pmStore dk.2
  let dataToInsert := (dk.2.filter
    (fun r => !existing.contains (pmKeyOfPrepared r))).map pmToRecord
  let logs := dk.1.map mkPmDupLog ++ dk.2.map (mkPmKeptLog existing)
  let sorted := sortPmLogs logs
  let skipped := (sorted.filter (fun l => l.result = .skipped)).length
  (⟨dataToInsert.length, mapped.length, skipped, sorted.map stripPmLog⟩,
    pmStore ++ dataToInsert)

/-! ## Named pipeline stages

Abbreviations for the let-bound intermediates of the two commit routes, so
theorems can speak about them; each is definitionally the corresponding
local of the route. -/

/-- The deduplicated kept rows of the procured-meds commit. -/
def pmDeduped (jsDate : String → Option Int) (rows : List PmInput) :
    List PmPrepared :=
  (dedupScan pmKeyOfPrepared (preparePm jsDate rows 0) []).2

/-- The existing-key list of the procured-meds commit. -/
def pmExisting (jsDate : String → Option Int) (pmStore : List ProcuredMed)
    (rows : List PmInput) : List String :=
  collectExistingPm pmStore (pmDeduped jsDate rows)

/-- The bulk-insert payload of the procured-meds commit. -/
def pmPayload (jsDate : String → Option Int) (pmStore : List ProcuredMed)
    (rows : List PmInput) : List ProcuredMed :=
  ((pmDeduped jsDate rows).filter (fun r =>
    !(pmExisting jsDate pmStore rows).contains (pmKeyOfPrepared r))).map
    pmToRecord

/-- The deduplicated kept rows of the IAR commit, given the mapped rows. -/
def iarDeduped (mapped : List IarPrepared) : List IarPrepared :=
  (dedupScan iarKeyOfPrepared mapped []).2

/-- The existing-key list of the IAR commit. -/
def iarExisting (iarStore : List IarRecord) (mapped : List IarPrepared) :
    List String :=
  collectExistingIar iarStore (iarDeduped mapped)

/-- The manufacturer lookup map of the IAR commit. -/
def iarManu (pmStore : List ProcuredMed) (mapped : List IarPrepared) :
    List (String × Option String) :=
  buildManuMap pmStore ((uniquePoItems (iarDeduped mapped)).map splitPoItemPair)

/-- The bulk-insert payload of the IAR commit. -/
def iarPayload (pmStore : List ProcuredMed) (iarStore : List IarRecord)
    (mapped : List IarPrepared) : List IarRecord :=
  ((iarDeduped mapped).filter (fun r =>
    !(iarExisting iarStore mapped).contains (iarKeyOfPrepared r))).map
    (iarToRecord (iarManu pmStore mapped))

/-! ## Canonical descriptions following the specification

The next definitions restate, in the specification's words, what the dedup
loop, the ledger, the manufacturer attachment and the fail-fast error are
supposed to produce; the theorems below compare them with the pipelines. -/

/-- Following the spec: a mapped procured-meds row is an upload-duplicate
when an earlier mapped row shares its composite key `(poNumber, itemNo)`. -/
def pmDupOfEarlier (mapped : List PmPrepared) (r : PmPrepared) : Bool :=
  mapped.any (fun q => decide (q.rowIndex < r.rowIndex) &&
    q.poNumber == r.poNumber && q.itemNo == r.itemNo)

/-- Following the spec: the canonical ledger entry of one mapped row — an
upload-duplicate is skipped with reason duplicate-in-upload, the first
occurrence gets the kept-row entry. -/
def canonPmLog (mapped : List PmPrepared) (existing : List String)
    (r : PmPrepared) : PmLog :=
  if pmDupOfEarlier mapped r then mkPmDupLog r else mkPmKeptLog existing r

/-- Following the spec: the rows kept for further processing are exactly the
first occurrences, in input order. -/
def pmKeptRows (jsDate : String → Option Int) (rows : List PmInput) :
    List PmPrepared :=
  (preparePm jsDate rows 0).filter
    (fun r => !pmDupOfEarlier (preparePm jsDate rows 0) r)

/-- Following the spec: one ledger entry per received row, in input order. -/
def pmLedgerSpec (jsDate : String → Option Int) (pmStore : List ProcuredMed)
    (rows : List PmInput) : List PmLogOut :=
  (preparePm jsDate rows 0).map (fun r =>
    stripPmLog (canonPmLog (preparePm jsDate rows 0)
      (collectExistingPm pmStore (pmKeptRows jsDate rows)) r))

/-- Following the spec, IAR side: an earlier mapped row shares the composite
key `(iarNumber, poNumber, itemNumber)`. -/
def iarDupOfEarlier (mapped : List IarPrepared) (r : IarPrepared) : Bool :=
  mapped.any (fun q => decide (q.rowIndex < r.rowIndex) &&
    q.iarNumber == r.iarNumber && q.poNumber == r.poNumber &&
    q.itemNumber == r.itemNumber)

/-- Following the spec, IAR side: the canonical ledger entry. -/
def canonIarLog (mapped : List IarPrepared) (existing : List String)
    (r : IarPrepared) : IarLog :=
  if iarDupOfEarlier mapped r then mkIarDupLog r else mkIarKeptLog existing r

/-- Following the spec, IAR side: the first occurrences, in input order. -/
def iarKeptRows (mapped : List IarPrepared) : List IarPrepared :=
  mapped.filter (fun r => !iarDupOfEarlier mapped r)

/-- Following the spec, IAR side: one ledger entry per mapped row. -/
def iarLedgerSpec (iarStore : List IarRecord) (mapped : List IarPrepared) :
    List IarLogOut :=
  mapped.map (fun r => stripIarLog (canonIarLog mapped
    (collectExistingIar iarStore (iarKeptRows mapped)) r))

/-- Following the spec (manufacturer derivation): the manufacturer of the
line item matching a `(poNumber, itemNumber)` pair, trimmed with empty
mapped to null; null when no line item matches. -/
def manuOfStore (pmStore : List ProcuredMed) (po : String) (item : Int) :
    Option String :=
  match pmStore.find? (fun s => s.poNumber == po && s.itemNo == item) with
  | some s => trimOrNull s.manufacturer
  | none => none

/-- A row whose inspection date, or non-empty expiration date, fails the
strict commit-time parse. -/
def iarRowBadDate (jsDate : String → Option Int) (r : IarInput) : Bool :=
  (parseDateOnly jsDate r.dateOfInspection).isNone ||
    (match r.expirationDate with
     | some e => !(e == "") && (parseDateOnly jsDate e).isNone
     | none => false)

/-- The 400 message the first failing row produces. -/
def iarBadMsgOf (jsDate : String → Option Int) (r : IarInput) (i : Nat) :
    String :=
  if (parseDateOnly jsDate r.dateOfInspection).isNone then
    iarBadInspMsg r.dateOfInspection i
  else
    match r.expirationDate with
    | some e => iarBadExpMsg e i
    | none => ""

/-! ## Concrete scenarios -/

/-- A date oracle for concrete runs: knows one local-midnight timestamp. -/
def jsDateCex : String → Option Int := fun s =>
  if s = "2024-01-02T00:00:00" then some 100 else none

/-- An IAR row whose iarNumber itself contains the key separator. -/
def cexIarRowA : IarInput :=
  ⟨"a::b", "2024-01-02", "c", 1, 5, none, none, none, none⟩

/-- An IAR row with a different composite key but the same string key as
`cexIarRowA`. -/
def cexIarRowB : IarInput :=
  ⟨"a", "2024-01-02", "b::c", 1, 5, none, none, none, none⟩

/-- A stored line item whose PO number contains the key separator. -/
def cexPmStoreRow : ProcuredMed :=
  ⟨"a::1", 2, none, none, none, none, none, none, none, none, some "M",
    none, none⟩

/-- An IAR row targeting that line item. -/
def cexIarRowC : IarInput :=
  ⟨"i1", "2024-01-02", "a::1", 2, 5, none, none, none, none⟩

/-- A well-formed IAR row with a colon-free PO number. -/
def cexIarRowD : IarInput :=
  ⟨"i1", "2024-01-02", "po-7", 3, 4, none, none, none, none⟩

/-- An IAR row with an unparsable inspection date. -/
def cexIarRowBadDate : IarInput :=
  ⟨"i2", "not-a-date", "po-7", 4, 4, none, none, none, none⟩

/-- A line item matching `cexIarRowD`, with an untrimmed manufacturer. -/
def cexPmStoreRow2 : ProcuredMed :=
  ⟨"po-7", 3, none, none, none, none, none, none, none, none, some " M ",
    none, none⟩

/-- The record the IAR commit inserts for `cexIarRowD` against
`cexPmStoreRow2`. -/
def cexIarInserted : IarRecord :=
  ⟨"i1", 100, "po-7", 3, 4, none, none, some "M", none, none⟩

/-- Two procured-meds commit rows sharing one composite key. -/
def cexPmRow1 : PmInput :=
  ⟨"po-1", 1, none, none, none, none, none, none, none, none, none, none,
    none⟩

/-- The later row with the same key as `cexPmRow1`. -/
def cexPmRow2 : PmInput :=
  ⟨"po-1", 1, none, some "S", none, none, none, none, none, none, none,
    none, none⟩

/-! ## Theorems -/

/-- `jsTrim` written with `List.rdropWhile`, for reasoning; definitionally the
same computation. -/
theorem jsTrim_def (s : String) :
    jsTrim s = ⟨(s.data.dropWhile jsWs).rdropWhile jsWs⟩ := rfl

/-- Trimming is idempotent. -/
theorem jsTrim_jsTrim (s : String) : jsTrim (jsTrim s) = jsTrim s := by
  rw [jsTrim_def, jsTrim_def]
  have h1 : ((s.data.dropWhile jsWs).rdropWhile jsWs).dropWhile jsWs
      = (s.data.dropWhile jsWs).rdropWhile jsWs := by
    rw [List.dropWhile_eq_self_iff]
    intro hl hp
    have hpre := List.rdropWhile_prefix jsWs (s.data.dropWhile jsWs)
    have hlen : 0 < (s.data.dropWhile jsWs).length :=
      lt_of_lt_of_le hl hpre.length_le
    have hget := List.IsPrefix.getElem hpre hl
    have h0 := List.dropWhile_get_zero_not jsWs s.data hlen
    rw [List.get_eq_getElem] at hp h0
    simp only [Fin.getElem_fin] at hp h0
    rw [hget] at hp
    exact h0 hp
  rw [h1, List.rdropWhile_idempotent]

/-- **C6.** For all integer inputs, `getInspectionStatus` returns NotDelivered
whenever `inspectedQty ≤ 0` regardless of `requiredQty`, Complete whenever
`requiredQty > 0` and `inspectedQty ≥ requiredQty`, and Partial otherwise;
in particular `(10,10) ↦ Complete`, `(10,5) ↦ Partial`,
`(10,0) ↦ NotDelivered`, `(0,3) ↦ Partial` (a zero-requirement line is never
Complete). -/
theorem c6_deriveStatus :
    (∀ required inspected : Int,
      (inspected ≤ 0 → getInspectionStatus required inspected = .notDelivered) ∧
      (0 < required → required ≤ inspected →
        getInspectionStatus required inspected = .complete) ∧
      (0 < inspected → (required ≤ 0 ∨ inspected < required) →
        getInspectionStatus required inspected = .partialDelivery)) ∧
    getInspectionStatus 10 10 = .complete ∧
    getInspectionStatus 10 5 = .partialDelivery ∧
    getInspectionStatus 10 0 = .notDelivered ∧
    getInspectionStatus 0 3 = .partialDelivery ∧
    (∀ inspected : Int, getInspectionStatus 0 inspected ≠ .complete) := by
  refine ⟨fun required inspected => ⟨?_, ?_, ?_⟩, by decide, by decide, by decide,
    by decide, ?_⟩
  · intro h
    simp [getInspectionStatus, h]
  · intro h1 h2
    have : ¬ inspected ≤ 0 := by omega
    simp [getInspectionStatus, this, h1, h2]
  · intro h1 h2
    have h3 : ¬ inspected ≤ 0 := by omega
    have h4 : ¬ (0 < required ∧ required ≤ inspected) := by omega
    simp [getInspectionStatus, h3, h4]
  · intro inspected
    by_cases h : inspected ≤ 0 <;> simp [getInspectionStatus, h]

/-- Witness for C6: the universally quantified clauses applied at concrete
points, with every hypothesis discharged there. -/
theorem c6_deriveStatus_witness :
    getInspectionStatus 7 0 = .notDelivered ∧
    getInspectionStatus 4 9 = .complete ∧
    getInspectionStatus 4 2 = .partialDelivery :=
  ⟨(c6_deriveStatus.1 7 0).1 (by decide),
   (c6_deriveStatus.1 4 9).2.1 (by decide) (by decide),
   (c6_deriveStatus.1 4 2).2.2 (by decide) (Or.inr (by decide))⟩


/-- **C8, counterexample.** `normalizeMoney` does not strip thousands
separators: `Number("1,234.567")` is `NaN` (non-finite), so the raw value is
passed through (`some none`), not rounded to `1234.57`. -/
theorem c8_normalizeMoney_counterexample :
    normalizeMoney (.str "1,234.567") = some none ∧
    normalizeMoney (.str "1,234.567") ≠ some (some ((123457 : ℚ) / 100)) := by
  constructor
  · decide
  · intro h
    have h0 : normalizeMoney (.str "1,234.567") = some none := by decide
    rw [h0] at h
    exact Option.noConfusion (Option.some.inj h)

/-- **C8, amended.** `normalizeMoney` does *not* strip thousands separators
(the spec's `"1,234.567" ↦ 1234.57` fails: the string converts to `NaN` and
is passed through unchanged, see the counterexample).  What does hold, with
JS doubles idealized as exact rationals: a non-finite conversion result is
passed through unchanged, and a finite numeric value is rounded to a whole
number of cents using half-up rounding (toward `+∞`) at the cent boundary;
the separator-free string `"1234.567"` normalizes to `1234.57`. -/
theorem c8_normalizeMoney_amended :
    (∀ q : ℚ, ∃ n : ℤ,
        normalizeMoney (.num (some q)) = some (some ((n : ℚ) / 100)) ∧
        (n : ℚ) - 1 / 2 ≤ 100 * q ∧ 100 * q < (n : ℚ) + 1 / 2) ∧
    (∀ s : String, s ≠ "" → jsToNumber s = none →
        normalizeMoney (.str s) = some none) ∧
    normalizeMoney (.str "1234.567") = some (some ((123457 : ℚ) / 100)) := by
  refine ⟨fun q => ⟨jsMathRound (q * 100), ?_, ?_, ?_⟩, ?_, ?_⟩
  · rfl
  · have h := Int.floor_le (q * 100 + 1 / 2)
    rw [jsMathRound]
    linarith [h]
  · have h := Int.lt_floor_add_one (q * 100 + 1 / 2)
    rw [jsMathRound]
    linarith [h]
  · intro s hs hnan
    have hne : ¬ (JsVal.str s = JsVal.nullv ∨ JsVal.str s = JsVal.str "") := by
      rintro (h | h)
      · exact JsVal.noConfusion h
      · exact hs (JsVal.str.inj h)
    rw [normalizeMoney, if_neg hne]
    have : jsNumberOf (.str s) = none := hnan
    rw [this]
  · have h : jsToNumber "1234.567" =
        some ((digitsVal ['1', '2', '3', '4'] : ℚ) +
          (digitsVal ['5', '6', '7'] : ℚ) / (10 : ℚ) ^ (3 : ℕ)) := rfl
    have hne : ¬ (JsVal.str "1234.567" = JsVal.nullv ∨
        JsVal.str "1234.567" = JsVal.str "") := by decide
    rw [normalizeMoney, if_neg hne]
    have h2 : jsNumberOf (.str "1234.567") = jsToNumber "1234.567" := rfl
    rw [h2, h]
    have hd1 : digitsVal ['1', '2', '3', '4'] = 1234 := by decide
    have hd2 : digitsVal ['5', '6', '7'] = 567 := by decide
    rw [hd1, hd2]
    have hfloor : jsMathRound (((1234 : ℕ) + ((567 : ℕ) : ℚ) / (10 : ℚ) ^ (3 : ℕ)) * 100)
        = 123457 := by
      rw [jsMathRound, Int.floor_eq_iff]
      push_cast
      norm_num
    simp only [hfloor]
    norm_num

/-- Witness for C8 (amended): the passthrough clause applied at the concrete
non-numeric string `"abc"`, hypotheses discharged by `decide`. -/
theorem c8_normalizeMoney_amended_witness :
    normalizeMoney (.str "abc") = some none :=
  c8_normalizeMoney_amended.2.1 "abc" (by decide) (by decide)

/-- One step of the lexicographic order, as an iff. -/
theorem charListLe_cons_iff {a b : Char} {as bs : List Char} :
    charListLe (a :: as) (b :: bs) = true ↔
      a < b ∨ (a = b ∧ charListLe as bs = true) := by
  by_cases h1 : a < b
  · simp [charListLe, h1]
  · by_cases h2 : b < a
    · have : a ≠ b := fun h => absurd (h ▸ h2) (lt_irrefl a)
      simp [charListLe, h1, h2, this]
    · have heq : a = b := le_antisymm (not_lt.mp h2) (not_lt.mp h1)
      simp [charListLe, h1, h2, heq]

/-- The lexicographic order is total. -/
theorem charListLe_total : ∀ a b : List Char,
    charListLe a b = true ∨ charListLe b a = true := by
  intro a
  induction a with
  | nil => intro b; left; rfl
  | cons x xs ih =>
    intro b
    cases b with
    | nil => right; rfl
    | cons y ys =>
      rcases lt_trichotomy x y with h | h | h
      · left; exact charListLe_cons_iff.mpr (Or.inl h)
      · rcases ih ys with h2 | h2
        · left; exact charListLe_cons_iff.mpr (Or.inr ⟨h, h2⟩)
        · right; exact charListLe_cons_iff.mpr (Or.inr ⟨h.symm, h2⟩)
      · right; exact charListLe_cons_iff.mpr (Or.inl h)

/-- The lexicographic order is transitive. -/
theorem charListLe_trans : ∀ a b c : List Char,
    charListLe a b = true → charListLe b c = true → charListLe a c = true := by
  intro a
  induction a with
  | nil => intro b c _ _; rfl
  | cons x xs ih =>
    intro b c hab hbc
    cases b with
    | nil => exact absurd hab (by simp [charListLe])
    | cons y ys =>
      cases c with
      | nil => exact absurd hbc (by simp [charListLe])
      | cons z zs =>
        rcases charListLe_cons_iff.mp hab with h1 | ⟨h1, h1r⟩ <;>
          rcases charListLe_cons_iff.mp hbc with h2 | ⟨h2, h2r⟩
        · exact charListLe_cons_iff.mpr (Or.inl (lt_trans h1 h2))
        · exact charListLe_cons_iff.mpr (Or.inl (h2 ▸ h1))
        · exact charListLe_cons_iff.mpr (Or.inl (h1 ▸ h2))
        · exact charListLe_cons_iff.mpr (Or.inr ⟨h1.trans h2, ih ys zs h1r h2r⟩)

/-- `sqlDistinctAsc` returns a sorted, duplicate-free list of members of its
input. -/
theorem sqlDistinctAsc_spec (vals : List String) :
    (sqlDistinctAsc vals).Sorted (fun a b => strLe a b = true) ∧
    (sqlDistinctAsc vals).Nodup ∧
    ∀ v ∈ sqlDistinctAsc vals, v ∈ vals := by
  haveI : IsTotal String (fun a b => strLe a b = true) :=
    ⟨fun a b => charListLe_total a.data b.data⟩
  haveI : IsTrans String (fun a b => strLe a b = true) :=
    ⟨fun a b c => charListLe_trans a.data b.data c.data⟩
  refine ⟨List.sorted_insertionSort _ _, ?_, ?_⟩
  · exact (List.perm_insertionSort _ _).nodup_iff.mpr vals.nodup_dedup
  · intro v hv
    exact List.mem_dedup.mp ((List.perm_insertionSort _ _).mem_iff.mp hv)

/-- If every value is already trimmed, the post-processing `map trim` is the
identity. -/
theorem trimmed_map_filter (vals : List String)
    (h : ∀ v ∈ vals, jsTrim v = v) :
    ((sqlDistinctAsc vals).map (fun v => jsTrim v)).filter (fun v => 0 < v.length)
      = (sqlDistinctAsc vals).filter (fun v => 0 < v.length) := by
  have hmem := (sqlDistinctAsc_spec vals).2.2
  have : (sqlDistinctAsc vals).map (fun v => jsTrim v)
      = (sqlDistinctAsc vals).map id := by
    apply List.map_congr_left
    intro v hv
    exact h v (hmem v hv)
  rw [this, List.map_id]

/-- **C9, counterexample.** With stored values `"A"` and `" A"` (distinct
before trimming, equal after), both distinct read endpoints return
`["A", "A"]`: trimming happens after `DISTINCT`/`ORDER BY`, so the returned
list can contain duplicates — the claim's "contains no duplicate values"
fails. -/
theorem c9_distinct_counterexample :
    poNumbersGET [cexPm1, cexPm2] = ["A", "A"] ∧
    ¬ (poNumbersGET [cexPm1, cexPm2]).Nodup ∧
    modesGET [cexPm1, cexPm2] = ["A", "A"] ∧
    ¬ (modesGET [cexPm1, cexPm2]).Nodup := by decide

/-- **C9, amended.** Every element the two distinct endpoints return is
trimmed and non-empty; and *provided the stored values are themselves
trimmed* (which the commit pipelines do not enforce for `procuredMed`), the
returned lists are additionally sorted ascending (byte-lexicographic
collation) and duplicate-free. -/
theorem c9_distinct_amended :
    (∀ store : List ProcuredMed,
      (∀ v ∈ poNumbersGET store, jsTrim v = v ∧ v ≠ "") ∧
      (∀ v ∈ modesGET store, jsTrim v = v ∧ v ≠ "")) ∧
    (∀ store : List ProcuredMed,
      (∀ r ∈ store, jsTrim r.poNumber = r.poNumber) →
      (poNumbersGET store).Sorted (fun a b => strLe a b = true) ∧
      (poNumbersGET store).Nodup) ∧
    (∀ store : List ProcuredMed,
      (∀ r ∈ store, ∀ v, r.modeOfProcurement = some v → jsTrim v = v) →
      (modesGET store).Sorted (fun a b => strLe a b = true) ∧
      (modesGET store).Nodup) := by
  have helem : ∀ (vals : List String),
      ∀ v ∈ ((sqlDistinctAsc vals).map (fun v => jsTrim v)).filter
        (fun v => 0 < v.length), jsTrim v = v ∧ v ≠ "" := by
    intro vals v hv
    have hv' := List.mem_filter.mp hv
    obtain ⟨w, _, hw⟩ := List.mem_map.mp hv'.1
    constructor
    · rw [← hw, jsTrim_jsTrim]
    · intro habs
      have hlen : decide (0 < v.length) = true := hv'.2
      rw [habs] at hlen
      exact absurd hlen (by decide)
  refine ⟨fun store => ⟨helem _, helem _⟩, ?_, ?_⟩
  · intro store h
    have hfix : ∀ v ∈ store.map (·.poNumber), jsTrim v = v := by
      intro v hv
      obtain ⟨r, hr, hrv⟩ := List.mem_map.mp hv
      exact hrv ▸ h r hr
    rw [poNumbersGET, trimmed_map_filter _ hfix]
    exact ⟨((sqlDistinctAsc_spec _).1).filter _,
      ((sqlDistinctAsc_spec _).2.1).filter _⟩
  · intro store h
    have hfix : ∀ v ∈ ((store.map (·.modeOfProcurement)).filterMap id).filter
        (fun v => jsTrim v ≠ ""), jsTrim v = v := by
      intro v hv
      have hv1 := (List.mem_filter.mp hv).1
      obtain ⟨o, ho, hov⟩ := List.mem_filterMap.mp hv1
      obtain ⟨r, hr, hro⟩ := List.mem_map.mp ho
      exact h r hr v (hro.symm ▸ hov)
    rw [modesGET, trimmed_map_filter _ hfix]
    exact ⟨((sqlDistinctAsc_spec _).1).filter _,
      ((sqlDistinctAsc_spec _).2.1).filter _⟩

/-- Witness for C9 (amended): a concrete store with trimmed values, the
provisos discharged by `decide`. -/
theorem c9_distinct_amended_witness :
    (poNumbersGET [cexPm1]).Sorted (fun a b => strLe a b = true) ∧
    (poNumbersGET [cexPm1]).Nodup :=
  c9_distinct_amended.2.1 [cexPm1] (by decide)

/-- Characterization of the parse loop: invalid rows become indexed errors
(spreadsheet position `i + 2`), valid rows survive in order. -/
theorem partitionLoop_spec {ρ : Type} (P : ρ → Bool) (msg : ρ → String) :
    ∀ (rows : List ρ) (i : Nat),
      partitionLoop P msg rows i =
        (((rows.enumFrom i).filter (fun p => !P p.2)).map
            (fun p => (p.1 + 2, msg p.2)),
          rows.filter P) := by
  intro rows
  induction rows with
  | nil => intro i; rfl
  | cons r rs ih =>
    intro i
    by_cases h : P r
    · simp [partitionLoop, h, ih (i + 1), List.enumFrom, List.filter]
    · simp [partitionLoop, h, ih (i + 1), List.enumFrom, List.filter]

/-- One ledger line per row: errors and valid rows partition the input. -/
theorem partitionLoop_length {ρ : Type} (P : ρ → Bool) (msg : ρ → String) :
    ∀ (rows : List ρ) (i : Nat),
      (partitionLoop P msg rows i).1.length
        + (partitionLoop P msg rows i).2.length = rows.length := by
  intro rows
  induction rows with
  | nil => intro i; rfl
  | cons r rs ih =>
    intro i
    have hih := ih (i + 1)
    cases hP : P r <;> simp [partitionLoop, hP] <;> omega

/-- **C10.** For every parsed spreadsheet, the parse response partitions the
non-empty mapped rows: `allValidRows` is exactly the rows passing the schema
check (in order), every failing row contributes exactly one indexed error
(original position + 2 for the header offset), so
`totalRows = validRowsCount + errors.length` with
`validRowsCount = allValidRows.length`, and `preview` is the first
`min(200, validRowsCount)` elements of `allValidRows`; instantiated on the
IAR row schema at a concrete input as a sanity check. -/
theorem c10_parse_partition :
    (∀ (ρ : Type) (P : ρ → Bool) (msg : ρ → String) (mapped : List ρ),
      (parseResponse P msg mapped).totalRows = mapped.length ∧
      (parseResponse P msg mapped).allValidRows = mapped.filter P ∧
      (parseResponse P msg mapped).validRowsCount
        = (parseResponse P msg mapped).allValidRows.length ∧
      (parseResponse P msg mapped).totalRows
        = (parseResponse P msg mapped).validRowsCount
          + (parseResponse P msg mapped).errors.length ∧
      (parseResponse P msg mapped).errors
        = ((mapped.enumFrom 0).filter (fun p => !P p.2)).map
            (fun p => (p.1 + 2, msg p.2)) ∧
      (parseResponse P msg mapped).preview
        = (parseResponse P msg mapped).allValidRows.take 200 ∧
      (parseResponse P msg mapped).preview.length
        = min 200 (parseResponse P msg mapped).validRowsCount) ∧
    parseResponse iarRowValid (fun _ => "invalid") [cexIarRowOk, cexIarRowBad]
      = ⟨2, 1, [(3, "invalid")], [cexIarRowOk], [cexIarRowOk]⟩ := by
  refine ⟨fun ρ P msg mapped => ?_, by decide⟩
  have hspec := partitionLoop_spec P msg mapped 0
  have hlen := partitionLoop_length P msg mapped 0
  rw [hspec] at hlen
  refine ⟨rfl, ?_, rfl, ?_, ?_, rfl, ?_⟩
  · show (partitionLoop P msg mapped 0).2 = mapped.filter P
    rw [hspec]
  · show mapped.length = (partitionLoop P msg mapped 0).2.length
      + (partitionLoop P msg mapped 0).1.length
    rw [hspec]
    simp only at hlen ⊢
    omega
  · show (partitionLoop P msg mapped 0).1 = _
    rw [hspec]
  · show ((partitionLoop P msg mapped 0).2.take 200).length
      = min 200 (partitionLoop P msg mapped 0).2.length
    rw [List.length_take]

/-- **C7, counterexample.** On `'Batch: AB-12345; Exp: 03/2026 "BrandX"'`
the labeled-expiry capture `[^;,\n]+` is greedy and grabs
`03/2026 "BrandX"` — quoted brand included — so the `M/YYYY` branch of
`normalizeExpiry` never fires; under a generic date parse that rejects this
non-ISO string (ECMAScript leaves it implementation-defined), the returned
`expirationDate` is null, not `"2026-03-01"` as claimed.  Brand and
batch/lot parse as claimed. -/
theorem c7_parseParticulars_counterexample :
    parseParticulars jsdRejecting
        (some "Batch: AB-12345; Exp: 03/2026 \"BrandX\"")
      = ⟨some "BrandX", some "AB-12345", none⟩ ∧
    (none : Option String) ≠ some "2026-03-01" := by
  exact ⟨by decide, by decide⟩

/-- **C7, amended.** `parseParticulars` on
`'Batch: AB-12345; Exp: 03/2026 "BrandX"'` yields brand `"BrandX"` and
batchLotNumber `"AB-12345"`; `expirationDate` is whatever the
implementation-defined generic date parse makes of the full captured text
`03/2026 "BrandX"` (null when it rejects it), *not* the month/year
normalization of the bare token — though the bare token `03/2026` alone
would indeed normalize to `"2026-03-01"`. -/
theorem c7_parseParticulars_amended :
    (∀ jsd : String → Option String,
      parseParticulars jsd (some "Batch: AB-12345; Exp: 03/2026 \"BrandX\"")
        = ⟨some "BrandX", some "AB-12345", jsd "03/2026 \"BrandX\""⟩) ∧
    (∀ jsd : String → Option String,
      normalizeExpiry jsd (some "03/2026") = some "2026-03-01") :=
  ⟨fun _ => rfl, fun _ => rfl⟩

/-! ### Chunking -/

/-- With enough fuel, the chunks rejoin to the input. -/
theorem chunkGo_join {α : Type} (n : Nat) (hn : 0 < n) :
    ∀ (f : Nat) (l : List α), l.length ≤ f → (chunkGo n f l).flatten = l := by
  intro f
  induction f with
  | zero =>
    intro l hl
    rw [List.length_eq_zero.mp (Nat.le_zero.mp hl)]
    rfl
  | succ f ih =>
    intro l hl
    cases l with
    | nil => rfl
    | cons x xs =>
      show (List.take n (x :: xs) :: chunkGo n f (List.drop n (x :: xs))).flatten
        = x :: xs
      rw [List.flatten_cons, ih _ (by
        simp only [List.length_drop, List.length_cons]
        simp only [List.length_cons] at hl
        omega), List.take_append_drop]

/-- `chunk(items, n)` rejoins to `items`. -/
theorem chunkList_join {α : Type} (n : Nat) (hn : 0 < n) (l : List α) :
    (chunkList n l).flatten = l :=
  chunkGo_join n hn l.length l le_rfl

/-- Membership across the chunks is membership in the input. -/
theorem chunkList_mem {α : Type} (n : Nat) (hn : 0 < n) (l : List α) (a : α) :
    (∃ g ∈ chunkList n l, a ∈ g) ↔ a ∈ l := by
  rw [← List.mem_flatten, chunkList_join n hn]

/-! ### Decimal rendering: `Nat.toDigits`, `Nat.repr`, `Int.repr` -/

/-- The accumulator of `Nat.toDigitsCore` is an append. -/
theorem toDigitsCore_append (b : Nat) :
    ∀ (f n : Nat) (ds : List Char),
      Nat.toDigitsCore b f n ds = Nat.toDigitsCore b f n [] ++ ds := by
  intro f
  induction f with
  | zero => intro n ds; rfl
  | succ f ih =>
    intro n ds
    by_cases h : n / b = 0
    · simp [Nat.toDigitsCore, h]
    · simp only [Nat.toDigitsCore, h, if_neg, if_false]
      rw [ih (n / b) (Nat.digitChar (n % b) :: ds),
        ih (n / b) [Nat.digitChar (n % b)]]
      simp

/-- `Nat.toDigitsCore` ignores the fuel once it exceeds the number. -/
theorem toDigitsCore_fuel (b : Nat) (hb : 2 ≤ b) :
    ∀ (n f₁ f₂ : Nat) (ds : List Char), n < f₁ → n < f₂ →
      Nat.toDigitsCore b f₁ n ds = Nat.toDigitsCore b f₂ n ds := by
  intro n
  induction n using Nat.strong_induction_on with
  | _ n ih =>
    intro f₁ f₂ ds h₁ h₂
    obtain ⟨g₁, rfl⟩ : ∃ g, f₁ = g + 1 := ⟨f₁ - 1, by omega⟩
    obtain ⟨g₂, rfl⟩ : ∃ g, f₂ = g + 1 := ⟨f₂ - 1, by omega⟩
    by_cases h : n / b = 0
    · simp [Nat.toDigitsCore, h]
    · have hn0 : n ≠ 0 := fun h0 => h (by simp [h0])
      have hdb : n / b < n := Nat.div_lt_self (by omega) (by omega)
      simp only [Nat.toDigitsCore, h, if_neg, if_false]
      exact ih (n / b) hdb g₁ g₂ _ (by omega) (by omega)

/-- Fuel-free unfolding of `Nat.toDigits`. -/
theorem toDigits_unfold (b : Nat) (hb : 2 ≤ b) (n : Nat) :
    Nat.toDigits b n = if n < b then [Nat.digitChar n]
      else Nat.toDigits b (n / b) ++ [Nat.digitChar (n % b)] := by
  show Nat.toDigitsCore b (n + 1) n [] = _
  by_cases h : n / b = 0
  · have hlt : n < b := (Nat.div_eq_zero_iff (by omega)).mp h
    simp [Nat.toDigitsCore, h, hlt, Nat.mod_eq_of_lt hlt]
  · have hge : ¬ n < b := fun hlt => h ((Nat.div_eq_zero_iff (by omega)).mpr hlt)
    have hn0 : n ≠ 0 := fun h0 => h (by simp [h0])
    have hdb : n / b < n := Nat.div_lt_self (by omega) (by omega)
    simp only [Nat.toDigitsCore, h, if_neg, if_false, hge]
    rw [toDigitsCore_append b n (n / b) [Nat.digitChar (n % b)],
      toDigitsCore_fuel b hb (n / b) n (n / b + 1) [] (by omega) (by omega)]
    rfl

/-- Horner step for a trailing digit. -/
theorem digitsVal_append_digit (cs : List Char) (c : Char) :
    digitsVal (cs ++ [c]) = 10 * digitsVal cs + (c.toNat - '0'.toNat) := by
  simp [digitsVal, List.foldl_append]

/-- `Nat.digitChar` of a decimal digit is a digit character. -/
theorem digitChar_isDigit {d : Nat} (h : d < 10) :
    (Nat.digitChar d).isDigit = true := by
  interval_cases d <;> decide

/-- `Nat.digitChar` round-trips through the character code. -/
theorem digitChar_val {d : Nat} (h : d < 10) :
    (Nat.digitChar d).toNat - '0'.toNat = d := by
  interval_cases d <;> decide

/-- The same, with the character code of `'0'` evaluated. -/
theorem digitChar_val48 {d : Nat} (h : d < 10) :
    (Nat.digitChar d).toNat - 48 = d := by
  interval_cases d <;> decide

/-- Reading the decimal rendering back gives the number. -/
theorem digitsVal_toDigits (n : Nat) : digitsVal (Nat.toDigits 10 n) = n := by
  induction n using Nat.strong_induction_on with
  | _ n ih =>
    rw [toDigits_unfold 10 (by omega)]
    by_cases h : n < 10
    · simp [h, digitsVal, digitChar_val48 h]
    · simp only [h, if_false]
      rw [digitsVal_append_digit,
        ih (n / 10) (Nat.div_lt_self (by omega) (by omega)),
        digitChar_val (Nat.mod_lt _ (by omega))]
      omega

/-- Every character of a decimal rendering is a digit. -/
theorem toDigits_all_digit (n : Nat) :
    ∀ c ∈ Nat.toDigits 10 n, c.isDigit = true := by
  induction n using Nat.strong_induction_on with
  | _ n ih =>
    rw [toDigits_unfold 10 (by omega)]
    by_cases h : n < 10
    · simp only [h, if_true, List.mem_singleton]
      intro c hc
      subst hc
      exact digitChar_isDigit h
    · simp only [h, if_false]
      intro c hc
      rcases List.mem_append.mp hc with h1 | h1
      · exact ih (n / 10) (Nat.div_lt_self (by omega) (by omega)) c h1
      · rw [List.mem_singleton] at h1
        subst h1
        exact digitChar_isDigit (Nat.mod_lt _ (by omega))

/-- The rendering is never empty. -/
theorem toDigits_ne_nil (n : Nat) : Nat.toDigits 10 n ≠ [] := by
  rw [toDigits_unfold 10 (by omega)]
  split <;> simp

/-- `Nat.repr` as its character list. -/
theorem natRepr_data (n : Nat) : (Nat.repr n).data = Nat.toDigits 10 n := rfl

/-- `Nat.repr` is injective. -/
theorem natRepr_inj {m n : Nat} (h : Nat.repr m = Nat.repr n) : m = n := by
  have h2 := congrArg (fun s => digitsVal s.data) h
  simpa [natRepr_data, digitsVal_toDigits] using h2

/-- String append acts on the underlying character lists. -/
theorem string_data_append (a b : String) : (a ++ b).data = a.data ++ b.data :=
  rfl

/-- Every character of `Nat.repr` is a digit. -/
theorem natRepr_all_digit (n : Nat) :
    ∀ c ∈ (Nat.repr n).data, c.isDigit = true := by
  rw [natRepr_data]
  exact toDigits_all_digit n

/-- `Int.repr` never contains a colon. -/
theorem intRepr_colon_free (n : Int) : ':' ∉ (Int.repr n).data := by
  cases n with
  | ofNat m =>
    intro h
    have hd := natRepr_all_digit m ':' h
    exact absurd hd (by decide)
  | negSucc m =>
    intro h
    have : (Int.repr (Int.negSucc m)).data
        = '-' :: (Nat.repr (m + 1)).data := rfl
    rw [this] at h
    rcases List.mem_cons.mp h with h1 | h1
    · exact absurd h1 (by decide)
    · exact absurd (natRepr_all_digit (m + 1) ':' h1) (by decide)

/-- `Int.repr` is injective. -/
theorem intRepr_inj {m n : Int} (h : Int.repr m = Int.repr n) : m = n := by
  cases m with
  | ofNat a =>
    cases n with
    | ofNat b => exact congrArg Int.ofNat (natRepr_inj h)
    | negSucc b =>
      exfalso
      have hd : (Nat.repr a).data = '-' :: (Nat.repr (b + 1)).data :=
        congrArg String.data h
      have hdig := natRepr_all_digit a '-' (hd ▸ List.mem_cons_self _ _)
      exact absurd hdig (by decide)
  | negSucc a =>
    cases n with
    | ofNat b =>
      exfalso
      have hd : ('-' :: (Nat.repr (a + 1)).data) = (Nat.repr b).data :=
        congrArg String.data h
      have hdig := natRepr_all_digit b '-' (hd ▸ List.mem_cons_self '-' _)
      exact absurd hdig (by decide)
    | negSucc b =>
      have hd : ('-' :: (Nat.repr (a + 1)).data)
          = '-' :: (Nat.repr (b + 1)).data := congrArg String.data h
      have htail : (Nat.repr (a + 1)).data = (Nat.repr (b + 1)).data := by
        injection hd
      have hab : a + 1 = b + 1 := natRepr_inj (String.ext htail)
      exact congrArg Int.negSucc (by omega)

/-! ### Key decomposition around the `::` separator -/

/-- Splitting at the first colon is unambiguous when neither prefix contains
one. -/
theorem colon_split {x y u v : List Char} (hx : ':' ∉ x) (hu : ':' ∉ u)
    (h : x ++ ':' :: y = u ++ ':' :: v) : x = u ∧ y = v := by
  induction x generalizing u with
  | nil =>
    cases u with
    | nil =>
      simp only [List.nil_append] at h
      exact ⟨rfl, (List.cons.injEq _ _ _ _ ▸ h).2⟩
    | cons w ws =>
      simp only [List.nil_append, List.cons_append] at h
      have hw : ':' = w := (List.cons.injEq _ _ _ _ ▸ h).1
      exact absurd (hw ▸ List.mem_cons_self w ws) hu
  | cons a as ih =>
    cases u with
    | nil =>
      simp only [List.cons_append, List.nil_append] at h
      have ha : a = ':' := (List.cons.injEq _ _ _ _ ▸ h).1
      exact absurd (ha ▸ List.mem_cons_self a as) hx
    | cons w ws =>
      simp only [List.cons_append] at h
      have h1 := (List.cons.injEq _ _ _ _ ▸ h).1
      have h2 := (List.cons.injEq _ _ _ _ ▸ h).2
      have hx' : ':' ∉ as := fun hm => hx (List.mem_cons_of_mem a hm)
      have hu' : ':' ∉ ws := fun hm => hu (List.mem_cons_of_mem w hm)
      obtain ⟨he, hv⟩ := ih hx' hu' h2
      exact ⟨by rw [h1, he], hv⟩

/-- Splitting at the last `::` is unambiguous when neither suffix contains a
colon. -/
theorem key2_decomp {a b c d : List Char} (hb : ':' ∉ b) (hd : ':' ∉ d)
    (h : a ++ ':' :: ':' :: b = c ++ ':' :: ':' :: d) : a = c ∧ b = d := by
  have hrev := congrArg List.reverse h
  simp only [List.reverse_append, List.reverse_cons, List.append_assoc,
    List.singleton_append] at hrev
  have hb' : ':' ∉ b.reverse := fun hm => hb (List.mem_reverse.mp hm)
  have hd' : ':' ∉ d.reverse := fun hm => hd (List.mem_reverse.mp hm)
  obtain ⟨h1, h2⟩ := colon_split hb' hd' hrev
  have h3 : (':' :: a.reverse) = (':' :: c.reverse) := h2
  have h4 : a.reverse = c.reverse := by injection h3
  exact ⟨List.reverse_injective h4, List.reverse_injective h1⟩

/-- The data of the procured-meds key. -/
theorem pmKey_data (p : String) (n : Int) :
    (pmKey p n).data = p.data ++ ':' :: ':' :: n.repr.data := by
  show (p.data ++ "::".data) ++ n.repr.data = _
  simp [show "::".data = [':', ':'] from rfl]

/-- The data of the IAR key. -/
theorem iarKey_data (i p : String) (n : Int) :
    (iarKey i p n).data
      = i.data ++ ':' :: ':' :: (p.data ++ ':' :: ':' :: n.repr.data) := by
  show ((i.data ++ "::".data) ++ p.data ++ "::".data) ++ n.repr.data = _
  simp [show "::".data = [':', ':'] from rfl]

/-- The procured-meds string key determines the composite key, with no
assumption on the fields. -/
theorem pmKey_inj {p₁ p₂ : String} {n₁ n₂ : Int}
    (h : pmKey p₁ n₁ = pmKey p₂ n₂) : p₁ = p₂ ∧ n₁ = n₂ := by
  have hd := congrArg String.data h
  rw [pmKey_data, pmKey_data] at hd
  obtain ⟨h1, h2⟩ := key2_decomp (intRepr_colon_free n₁) (intRepr_colon_free n₂) hd
  exact ⟨String.ext h1, intRepr_inj (String.ext h2)⟩

/-- The IAR string key determines the composite key, provided the PO numbers
contain no colon (the counterexample to C1 shows this proviso is needed). -/
theorem iarKey_inj {i₁ i₂ p₁ p₂ : String} {n₁ n₂ : Int}
    (hp₁ : ':' ∉ p₁.data) (hp₂ : ':' ∉ p₂.data)
    (h : iarKey i₁ p₁ n₁ = iarKey i₂ p₂ n₂) :
    i₁ = i₂ ∧ p₁ = p₂ ∧ n₁ = n₂ := by
  have hd := congrArg String.data h
  rw [iarKey_data, iarKey_data] at hd
  have hd' : (i₁.data ++ ':' :: ':' :: p₁.data) ++ ':' :: ':' :: n₁.repr.data
      = (i₂.data ++ ':' :: ':' :: p₂.data) ++ ':' :: ':' :: n₂.repr.data := by
    simpa [List.append_assoc] using hd
  obtain ⟨h1, h2⟩ := key2_decomp (intRepr_colon_free n₁) (intRepr_colon_free n₂) hd'
  obtain ⟨h3, h4⟩ := key2_decomp hp₁ hp₂ h1
  exact ⟨String.ext h3, String.ext h4, intRepr_inj (String.ext h2)⟩

/-! ### `split("::")` and `Number(...)` on key fragments -/

/-- A colon-free list is a single segment. -/
theorem jsSplitCC_colon_free {b : List Char} (hb : ':' ∉ b) :
    jsSplitCC b = [b] := by
  induction b with
  | nil => rfl
  | cons c rest ih =>
    have hc : c ≠ ':' := fun h => hb (h ▸ List.mem_cons_self c rest)
    have hrest : ':' ∉ rest := fun h => hb (List.mem_cons_of_mem c h)
    cases rest with
    | nil => rfl
    | cons c2 rest2 =>
      have h2 := ih hrest
      show jsSplitCC (c :: c2 :: rest2) = _
      rw [jsSplitCC, if_neg (fun hand => hc hand.1), h2]

/-- `split("::")` recovers a colon-free first segment. -/
theorem jsSplitCC_boundary {a : List Char} (b : List Char) (ha : ':' ∉ a) :
    jsSplitCC (a ++ ':' :: ':' :: b) = a :: jsSplitCC b := by
  induction a with
  | nil =>
    show jsSplitCC (':' :: ':' :: b) = [] :: jsSplitCC b
    rw [jsSplitCC, if_pos ⟨rfl, rfl⟩]
  | cons c rest ih =>
    have hc : c ≠ ':' := fun h => ha (h ▸ List.mem_cons_self c rest)
    have hrest : ':' ∉ rest := fun h => ha (List.mem_cons_of_mem c h)
    have hih := ih hrest
    cases hr : rest ++ ':' :: ':' :: b with
    | nil => exact absurd hr (by simp)
    | cons d ds =>
      show jsSplitCC (c :: rest ++ ':' :: ':' :: b) = _
      rw [List.cons_append, hr, jsSplitCC, if_neg (fun hand => hc hand.1),
        ← hr, hih]

/-- `Number` on an all-digit non-empty string is its value. -/
theorem jsNumberInt_of_digits {s : String} (h1 : s.data ≠ [])
    (h2 : s.data.all Char.isDigit = true) :
    jsNumberInt s = some (digitsVal s.data : Int) := by
  have hminus : ¬ s.data.head? = some '-' := by
    intro hm
    obtain ⟨c, cs, heq⟩ := List.exists_cons_of_ne_nil h1
    rw [heq] at hm h2
    have hc : c = '-' := by
      simp only [List.head?_cons, Option.some.injEq] at hm
      exact hm
    have hd := List.all_eq_true.mp h2 c (List.mem_cons_self c cs)
    rw [hc] at hd
    exact absurd hd (by decide)
  rw [jsNumberInt, if_neg h1, if_neg hminus, if_pos h2]

/-- `Number` on a minus sign followed by digits is the negated value. -/
theorem jsNumberInt_neg_digits {s : String} {ds : List Char}
    (hdata : s.data = '-' :: ds) (hne : ds ≠ [])
    (hdig : ds.all Char.isDigit = true) :
    jsNumberInt s = some (-(digitsVal ds : Int)) := by
  rw [jsNumberInt, if_neg (by rw [hdata]; simp),
    if_pos (by rw [hdata]; rfl),
    if_pos (by rw [hdata]; exact ⟨hne, hdig⟩)]
  rw [hdata]
  rfl

/-- `Number` undoes the decimal rendering of an integer. -/
theorem jsNumberInt_repr (n : Int) : jsNumberInt n.repr = some n := by
  cases n with
  | ofNat m =>
    have hdata : (Int.repr (Int.ofNat m)).data = Nat.toDigits 10 m := by
      rw [show Int.repr (Int.ofNat m) = Nat.repr m from rfl, natRepr_data]
    have h1 : (Int.repr (Int.ofNat m)).data ≠ [] := by
      rw [hdata]; exact toDigits_ne_nil m
    have h2 : (Int.repr (Int.ofNat m)).data.all Char.isDigit = true := by
      rw [hdata, List.all_eq_true]
      exact toDigits_all_digit m
    rw [jsNumberInt_of_digits h1 h2]
    rw [show digitsVal (Int.repr (Int.ofNat m)).data = m from by
      rw [hdata, digitsVal_toDigits]]
    rfl
  | negSucc m =>
    have hdata : (Int.repr (Int.negSucc m)).data
        = '-' :: (Nat.repr (m + 1)).data := rfl
    have hne : (Nat.repr (m + 1)).data ≠ [] := by
      rw [natRepr_data]; exact toDigits_ne_nil (m + 1)
    have hdig : (Nat.repr (m + 1)).data.all Char.isDigit = true := by
      rw [natRepr_data, List.all_eq_true]
      exact toDigits_all_digit (m + 1)
    rw [jsNumberInt_neg_digits hdata hne hdig]
    rw [show digitsVal (Nat.repr (m + 1)).data = m + 1 from by
      rw [natRepr_data, digitsVal_toDigits]]
    rw [Int.negSucc_eq]
    simp

/-! ### Generic dedup-loop lemmas -/

section DedupLemmas

variable {ρ : Type} (key : ρ → String) (idx : ρ → Nat)

/-- `contains` on string lists is membership. -/
theorem strContains_iff {l : List String} {s : String} :
    l.contains s = true ↔ s ∈ l := List.elem_iff

/-- The dedup loop partitions the rows. -/
theorem dedupScan_perm :
    ∀ (rows : List ρ) (seen : List String),
      List.Perm ((dedupScan key rows seen).1 ++ (dedupScan key rows seen).2)
        rows := by
  intro rows
  induction rows with
  | nil => intro seen; rfl
  | cons r rs ih =>
    intro seen
    by_cases h : seen.contains (key r)
    · simp only [dedupScan, h, if_true]
      exact (ih seen).cons r
    · simp only [dedupScan, h, if_false, Bool.false_eq_true]
      exact List.perm_middle.trans ((ih (key r :: seen)).cons r)

/-- Members of either output are input rows. -/
theorem dedupScan_mem_left {rows : List ρ} {seen : List String} {r : ρ}
    (h : r ∈ (dedupScan key rows seen).1) : r ∈ rows :=
  (dedupScan_perm key rows seen).mem_iff.mp (List.mem_append_left _ h)

/-- Members of either output are input rows. -/
theorem dedupScan_mem_right {rows : List ρ} {seen : List String} {r : ρ}
    (h : r ∈ (dedupScan key rows seen).2) : r ∈ rows :=
  (dedupScan_perm key rows seen).mem_iff.mp (List.mem_append_right _ h)

/-- Kept rows have fresh keys, pairwise distinct. -/
theorem dedupScan_kept_keys :
    ∀ (rows : List ρ) (seen : List String),
      (∀ r ∈ (dedupScan key rows seen).2, seen.contains (key r) = false) ∧
      ((dedupScan key rows seen).2.map key).Nodup := by
  intro rows
  induction rows with
  | nil => intro seen; exact ⟨fun r h => absurd h (by simp [dedupScan]), by
      simp [dedupScan]⟩
  | cons r rs ih =>
    intro seen
    by_cases h : seen.contains (key r)
    · simp only [dedupScan, h, if_true]
      exact ih seen
    · simp only [dedupScan, h, if_false, Bool.false_eq_true]
      obtain ⟨ihfresh, ihnodup⟩ := ih (key r :: seen)
      constructor
      · intro x hx
        rcases List.mem_cons.mp hx with hx1 | hx1
        · rw [hx1]
          exact Bool.eq_false_iff.mpr h
        · have hfr := ihfresh x hx1
          rw [Bool.eq_false_iff] at hfr ⊢
          intro hc
          exact hfr (strContains_iff.mpr
            (List.mem_cons_of_mem _ (strContains_iff.mp hc)))
      · rw [List.map_cons, List.nodup_cons]
        constructor
        · intro hmem
          obtain ⟨x, hx, hkx⟩ := List.mem_map.mp hmem
          have hfr := ihfresh x hx
          rw [Bool.eq_false_iff] at hfr
          exact hfr (strContains_iff.mpr (by rw [hkx]; exact List.mem_cons_self _ _))
        · exact ihnodup

/-- Two kept rows with the same key are the same row. -/
theorem dedupScan_kept_key_inj {rows : List ρ} {seen : List String} {a b : ρ}
    (ha : a ∈ (dedupScan key rows seen).2)
    (hb : b ∈ (dedupScan key rows seen).2) (hk : key a = key b) : a = b :=
  List.inj_on_of_nodup_map (dedupScan_kept_keys key rows seen).2 ha hb hk

/-- Duplicate rows have an earlier row with the same key; kept rows have
none.  `H` is the already-processed history whose keys `seen` holds. -/
theorem dedupScan_first_spec :
    ∀ (rows : List ρ) (seen : List String) (H : List ρ)
      (hseen : ∀ s, seen.contains s = true ↔ ∃ h ∈ H, key h = s)
      (hord : ∀ h ∈ H, ∀ r ∈ rows, idx h < idx r)
      (hrows : rows.Pairwise (fun a b => idx a < idx b)),
      (∀ r ∈ (dedupScan key rows seen).1,
        ∃ r', (r' ∈ H ∨ r' ∈ rows) ∧ idx r' < idx r ∧ key r' = key r) ∧
      (∀ r ∈ (dedupScan key rows seen).2,
        ∀ r', (r' ∈ H ∨ r' ∈ rows) → idx r' < idx r → key r' ≠ key r) := by
  intro rows
  induction rows with
  | nil =>
    intro seen H hseen hord hrows
    exact ⟨fun r h => absurd h (by simp [dedupScan]),
      fun r h => absurd h (by simp [dedupScan])⟩
  | cons r rs ih =>
    intro seen H hseen hord hrows
    have hordtail : ∀ h ∈ H ++ [r], ∀ x ∈ rs, idx h < idx x := by
      intro h hh x hx
      rcases List.mem_append.mp hh with h1 | h1
      · exact hord h h1 x (List.mem_cons_of_mem r hx)
      · rw [List.mem_singleton.mp h1]
        exact (List.pairwise_cons.mp hrows).1 x hx
    have hrowstail := (List.pairwise_cons.mp hrows).2
    by_cases h : seen.contains (key r)
    · have hseen' : ∀ s, seen.contains s = true ↔ ∃ x ∈ H ++ [r], key x = s := by
        intro s
        rw [hseen s]
        constructor
        · rintro ⟨x, hx, hks⟩
          exact ⟨x, List.mem_append_left _ hx, hks⟩
        · rintro ⟨x, hx, hks⟩
          rcases List.mem_append.mp hx with h1 | h1
          · exact ⟨x, h1, hks⟩
          · rw [List.mem_singleton.mp h1] at hks
            rw [← hks]
            exact (hseen (key r)).mp h
      obtain ⟨ihd, ihk⟩ := ih seen (H ++ [r]) hseen' hordtail hrowstail
      simp only [dedupScan, h, if_true]
      constructor
      · intro x hx
        rcases List.mem_cons.mp hx with hx1 | hx1
        · subst hx1
          obtain ⟨w, hw, hkw⟩ := (hseen (key x)).mp h
          exact ⟨w, Or.inl hw, hord w hw x (List.mem_cons_self x rs), hkw⟩
        · obtain ⟨w, hw, hlt, hkw⟩ := ihd x hx1
          refine ⟨w, ?_, hlt, hkw⟩
          rcases hw with h1 | h1
          · rcases List.mem_append.mp h1 with h2 | h2
            · exact Or.inl h2
            · exact Or.inr (List.mem_cons.mpr (Or.inl (List.mem_singleton.mp h2)))
          · exact Or.inr (List.mem_cons_of_mem r h1)
      · intro x hx w hw hlt
        refine ihk x hx w ?_ hlt
        rcases hw with h1 | h1
        · exact Or.inl (List.mem_append_left _ h1)
        · rcases List.mem_cons.mp h1 with h2 | h2
          · exact Or.inl (List.mem_append_right _ (h2 ▸ List.mem_singleton_self r))
          · exact Or.inr h2
    · have hseen' : ∀ s, (key r :: seen).contains s = true ↔
          ∃ x ∈ H ++ [r], key x = s := by
        intro s
        rw [strContains_iff, List.mem_cons]
        constructor
        · rintro (h1 | h1)
          · exact ⟨r, List.mem_append_right _ (List.mem_singleton_self r), h1.symm⟩
          · obtain ⟨x, hx, hks⟩ := (hseen s).mp (strContains_iff.mpr h1)
            exact ⟨x, List.mem_append_left _ hx, hks⟩
        · rintro ⟨x, hx, hks⟩
          rcases List.mem_append.mp hx with h1 | h1
          · exact Or.inr (strContains_iff.mp ((hseen s).mpr ⟨x, h1, hks⟩))
          · left
            rw [List.mem_singleton.mp h1] at hks
            exact hks.symm
      obtain ⟨ihd, ihk⟩ := ih (key r :: seen) (H ++ [r]) hseen' hordtail hrowstail
      simp only [dedupScan, h, if_false, Bool.false_eq_true]
      constructor
      · intro x hx
        obtain ⟨w, hw, hlt, hkw⟩ := ihd x hx
        refine ⟨w, ?_, hlt, hkw⟩
        rcases hw with h1 | h1
        · rcases List.mem_append.mp h1 with h2 | h2
          · exact Or.inl h2
          · exact Or.inr (List.mem_cons.mpr (Or.inl (List.mem_singleton.mp h2)))
        · exact Or.inr (List.mem_cons_of_mem r h1)
      · intro x hx w hw hlt hkey
        rcases List.mem_cons.mp hx with hx1 | hx1
        · subst hx1
          rcases hw with h1 | h1
          · exact h ((hseen (key x)).mpr ⟨w, h1, hkey⟩)
          · rcases List.mem_cons.mp h1 with h2 | h2
            · subst h2
              exact absurd hlt (lt_irrefl _)
            · have := (List.pairwise_cons.mp hrows).1 w h2
              omega
        · refine ihk x hx1 w ?_ hlt hkey
          rcases hw with h1 | h1
          · exact Or.inl (List.mem_append_left _ h1)
          · rcases List.mem_cons.mp h1 with h2 | h2
            · exact Or.inl (List.mem_append_right _
                (h2 ▸ List.mem_singleton_self r))
            · exact Or.inr h2

end DedupLemmas

/-! ### Sorting the ledger -/

/-- Sorting by a strictly increasing index reproduces a canonical list: a
permutation of a list that is strictly sorted on `lidx`, sorted by
`lidx ≤ lidx`, is that list. -/
theorem sort_canonical {σ : Type} (lidx : σ → Nat)
    (logs canonical : List σ) (hperm : List.Perm logs canonical)
    (hsorted : canonical.Pairwise (fun a b => lidx a < lidx b)) :
    List.insertionSort (fun a b => lidx a ≤ lidx b) logs = canonical := by
  haveI : IsTotal σ (fun a b => lidx a ≤ lidx b) :=
    ⟨fun a b => Nat.le_total (lidx a) (lidx b)⟩
  haveI : IsTrans σ (fun a b => lidx a ≤ lidx b) :=
    ⟨fun _ _ _ h1 h2 => Nat.le_trans h1 h2⟩
  haveI : IsAntisymm σ (fun a b => lidx a < lidx b) :=
    ⟨fun _ _ h1 h2 => absurd h2 (Nat.lt_asymm h1)⟩
  have hperm2 : List.Perm (List.insertionSort (fun a b => lidx a ≤ lidx b) logs)
      canonical := (List.perm_insertionSort _ logs).trans hperm
  have hle : (List.insertionSort (fun a b => lidx a ≤ lidx b) logs).Pairwise
      (fun a b => lidx a ≤ lidx b) := List.sorted_insertionSort _ logs
  have hnec : canonical.Pairwise (fun a b => lidx a ≠ lidx b) :=
    hsorted.imp (fun h => Nat.ne_of_lt h)
  have hnes : (List.insertionSort (fun a b => lidx a ≤ lidx b) logs).Pairwise
      (fun a b => lidx a ≠ lidx b) :=
    (hperm2.pairwise_iff (fun h => Ne.symm h)).mpr hnec
  have hlt : (List.insertionSort (fun a b => lidx a ≤ lidx b) logs).Pairwise
      (fun a b => lidx a < lidx b) :=
    (hle.and hnes).imp (fun h => Nat.lt_of_le_of_ne h.1 h.2)
  exact List.eq_of_perm_of_sorted hperm2 hlt hsorted

/-! ### Membership in the chunked folds -/

/-- Membership through a fold whose step adds the matches of one group. -/
theorem foldl_mem_general {α β : Type} (step : β → List α → List α)
    (P : β → α → Prop) (hstep : ∀ g m x, x ∈ step g m ↔ x ∈ m ∨ P g x) :
    ∀ (groups : List β) (init : List α) (x : α),
      x ∈ groups.foldl (fun m g => step g m) init ↔
        x ∈ init ∨ ∃ g ∈ groups, P g x := by
  intro groups
  induction groups with
  | nil => intro init x; simp
  | cons g gs ih =>
    intro init x
    rw [List.foldl_cons, ih (step g init) x, hstep g init x]
    constructor
    · rintro ((h | h) | ⟨g', hg', hp⟩)
      · exact Or.inl h
      · exact Or.inr ⟨g, List.mem_cons_self g gs, h⟩
      · exact Or.inr ⟨g', List.mem_cons_of_mem g hg', hp⟩
    · rintro (h | ⟨g', hg', hp⟩)
      · exact Or.inl (Or.inl h)
      · rcases List.mem_cons.mp hg' with h1 | h1
        · exact Or.inl (Or.inr (h1 ▸ hp))
        · exact Or.inr ⟨g', h1, hp⟩

/-- Membership through a fold that prepends one entry per row. -/
theorem foldl_prepend_mem {α β : Type} (e : β → α) :
    ∀ (rows : List β) (init : List α) (x : α),
      x ∈ rows.foldl (fun m r => e r :: m) init ↔
        x ∈ init ∨ ∃ r ∈ rows, x = e r := by
  intro rows
  induction rows with
  | nil => intro init x; simp
  | cons r rs ih =>
    intro init x
    rw [List.foldl_cons, ih (e r :: init) x, List.mem_cons]
    constructor
    · rintro ((h | h) | ⟨r', hr', hp⟩)
      · exact Or.inr ⟨r, List.mem_cons_self r rs, h⟩
      · exact Or.inl h
      · exact Or.inr ⟨r', List.mem_cons_of_mem r hr', hp⟩
    · rintro (h | ⟨r', hr', hp⟩)
      · exact Or.inl (Or.inr h)
      · rcases List.mem_cons.mp hr' with h1 | h1
        · exact Or.inl (Or.inl (h1 ▸ hp))
        · exact Or.inr ⟨r', h1, hp⟩

/-- What the IAR existing-key list holds. -/
theorem collectExistingIar_mem (iarStore : List IarRecord)
    (deduped : List IarPrepared) (x : String) :
    x ∈ collectExistingIar iarStore deduped ↔
      ∃ s ∈ iarStore, (∃ r ∈ deduped, r.iarNumber = s.iarNumber ∧
        r.poNumber = s.poNumber ∧ r.itemNumber = s.itemNumber) ∧
        x = iarKeyOfRecord s := by
  rw [collectExistingIar]
  have hstep : ∀ (g : List IarPrepared) (m : List String) (y : String),
      y ∈ m ++ (iarStore.filter (fun s => g.any (fun r =>
        r.iarNumber = s.iarNumber && r.poNumber = s.poNumber &&
          r.itemNumber = s.itemNumber))).map iarKeyOfRecord ↔
      y ∈ m ∨ ∃ s ∈ iarStore, (∃ r ∈ g, r.iarNumber = s.iarNumber ∧
        r.poNumber = s.poNumber ∧ r.itemNumber = s.itemNumber) ∧
        y = iarKeyOfRecord s := by
    intro g m y
    rw [List.mem_append]
    apply or_congr Iff.rfl
    rw [List.mem_map]
    constructor
    · rintro ⟨s, hs, hy⟩
      have hs2 := List.mem_filter.mp hs
      obtain ⟨r, hr, hmatch⟩ := List.any_eq_true.mp hs2.2
      refine ⟨s, hs2.1, ⟨r, hr, ?_⟩, hy.symm⟩
      simp only [Bool.and_eq_true, decide_eq_true_eq] at hmatch
      exact ⟨hmatch.1.1, hmatch.1.2, hmatch.2⟩
    · rintro ⟨s, hs, ⟨r, hr, h1, h2, h3⟩, hy⟩
      refine ⟨s, List.mem_filter.mpr ⟨hs, ?_⟩, hy.symm⟩
      rw [List.any_eq_true]
      refine ⟨r, hr, ?_⟩
      simp [h1, h2, h3]
  refine Iff.trans (foldl_mem_general _ _ hstep (chunkList 500 deduped) [] x) ?_
  simp only [List.not_mem_nil, false_or]
  constructor
  · rintro ⟨g, hg, s, hs, ⟨r, hr, hm⟩, hy⟩
    exact ⟨s, hs, ⟨r, (chunkList_mem 500 (by omega) deduped r).mp ⟨g, hg, hr⟩,
      hm⟩, hy⟩
  · rintro ⟨s, hs, ⟨r, hr, hm⟩, hy⟩
    obtain ⟨g, hg, hrg⟩ := (chunkList_mem 500 (by omega) deduped r).mpr hr
    exact ⟨g, hg, s, hs, ⟨r, hrg, hm⟩, hy⟩

/-- What the procured-meds existing-key list holds. -/
theorem collectExistingPm_mem (pmStore : List ProcuredMed)
    (deduped : List PmPrepared) (x : String) :
    x ∈ collectExistingPm pmStore deduped ↔
      ∃ s ∈ pmStore, (∃ r ∈ deduped, r.poNumber = s.poNumber ∧
        r.itemNo = s.itemNo) ∧ x = pmKeyOfRecord s := by
  rw [collectExistingPm]
  have hstep : ∀ (g : List PmPrepared) (m : List String) (y : String),
      y ∈ m ++ (pmStore.filter (fun s => g.any (fun r =>
        r.poNumber = s.poNumber && r.itemNo = s.itemNo))).map pmKeyOfRecord ↔
      y ∈ m ∨ ∃ s ∈ pmStore, (∃ r ∈ g, r.poNumber = s.poNumber ∧
        r.itemNo = s.itemNo) ∧ y = pmKeyOfRecord s := by
    intro g m y
    rw [List.mem_append]
    apply or_congr Iff.rfl
    rw [List.mem_map]
    constructor
    · rintro ⟨s, hs, hy⟩
      have hs2 := List.mem_filter.mp hs
      obtain ⟨r, hr, hmatch⟩ := List.any_eq_true.mp hs2.2
      refine ⟨s, hs2.1, ⟨r, hr, ?_⟩, hy.symm⟩
      simp only [Bool.and_eq_true, decide_eq_true_eq] at hmatch
      exact hmatch
    · rintro ⟨s, hs, ⟨r, hr, h1, h2⟩, hy⟩
      refine ⟨s, List.mem_filter.mpr ⟨hs, ?_⟩, hy.symm⟩
      rw [List.any_eq_true]
      refine ⟨r, hr, ?_⟩
      simp [h1, h2]
  refine Iff.trans (foldl_mem_general _ _ hstep (chunkList 500 deduped) [] x) ?_
  simp only [List.not_mem_nil, false_or]
  constructor
  · rintro ⟨g, hg, s, hs, ⟨r, hr, hm⟩, hy⟩
    exact ⟨s, hs, ⟨r, (chunkList_mem 500 (by omega) deduped r).mp ⟨g, hg, hr⟩,
      hm⟩, hy⟩
  · rintro ⟨s, hs, ⟨r, hr, hm⟩, hy⟩
    obtain ⟨g, hg, hrg⟩ := (chunkList_mem 500 (by omega) deduped r).mpr hr
    exact ⟨g, hg, s, hs, ⟨r, hrg, hm⟩, hy⟩

/-- What the manufacturer map holds. -/
theorem buildManuMap_mem (pmStore : List ProcuredMed)
    (pairs : List (String × Option Int)) (x : String × Option String) :
    x ∈ buildManuMap pmStore pairs ↔
      ∃ s ∈ pmStore, (∃ pr ∈ pairs, pairMatchesPm pr s = true) ∧
        x = (pmKey s.poNumber s.itemNo, trimOrNull s.manufacturer) := by
  rw [buildManuMap]
  have hstep : ∀ (g : List (String × Option Int))
      (m : List (String × Option String)) (y : String × Option String),
      y ∈ (pmStore.filter (fun s => g.any (fun pr =>
        pairMatchesPm pr s))).foldl (fun m2 srow =>
          (pmKey srow.poNumber srow.itemNo, trimOrNull srow.manufacturer) :: m2)
          m ↔
      y ∈ m ∨ ∃ s ∈ pmStore, (∃ pr ∈ g, pairMatchesPm pr s = true) ∧
        y = (pmKey s.poNumber s.itemNo, trimOrNull s.manufacturer) := by
    intro g m y
    rw [foldl_prepend_mem]
    apply or_congr Iff.rfl
    constructor
    · rintro ⟨s, hs, hy⟩
      have hs2 := List.mem_filter.mp hs
      obtain ⟨pr, hpr, hmatch⟩ := List.any_eq_true.mp hs2.2
      exact ⟨s, hs2.1, ⟨pr, hpr, hmatch⟩, hy⟩
    · rintro ⟨s, hs, ⟨pr, hpr, hmatch⟩, hy⟩
      refine ⟨s, List.mem_filter.mpr ⟨hs, ?_⟩, hy⟩
      rw [List.any_eq_true]
      exact ⟨pr, hpr, hmatch⟩
  refine Iff.trans (foldl_mem_general _ _ hstep (chunkList 500 pairs) [] x) ?_
  simp only [List.not_mem_nil, false_or]
  constructor
  · rintro ⟨g, hg, s, hs, ⟨pr, hpr, hm⟩, hy⟩
    exact ⟨s, hs, ⟨pr, (chunkList_mem 500 (by omega) pairs pr).mp ⟨g, hg, hpr⟩,
      hm⟩, hy⟩
  · rintro ⟨s, hs, ⟨pr, hpr, hm⟩, hy⟩
    obtain ⟨g, hg, hprg⟩ := (chunkList_mem 500 (by omega) pairs pr).mpr hpr
    exact ⟨g, hg, s, hs, ⟨pr, hprg, hm⟩, hy⟩

/-- What the `uniquePoItem` set holds. -/
theorem uniquePoItems_mem (deduped : List IarPrepared) (x : String) :
    x ∈ uniquePoItems deduped ↔
      ∃ r ∈ deduped, x = pmKey r.poNumber r.itemNumber := by
  rw [uniquePoItems]
  have hstep : ∀ (r : IarPrepared) (m : List String) (y : String),
      y ∈ uniqueAdd m (pmKey r.poNumber r.itemNumber) ↔
      y ∈ m ∨ y = pmKey r.poNumber r.itemNumber := by
    intro r m y
    rw [uniqueAdd]
    by_cases h : m.contains (pmKey r.poNumber r.itemNumber)
    · rw [if_pos h]
      constructor
      · exact Or.inl
      · rintro (h1 | h1)
        · exact h1
        · exact h1 ▸ strContains_iff.mp h
    · rw [if_neg h, List.mem_append, List.mem_singleton]
  refine Iff.trans (foldl_mem_general _ _ hstep deduped [] x) ?_
  simp

/-- Association-list lookup when every hit carries the same value. -/
theorem lookup_all_same {v : Option String} {k : String} :
    ∀ (m : List (String × Option String)),
      (∀ p ∈ m, p.1 = k → p.2 = v) → (∃ p ∈ m, p.1 = k) →
      List.lookup k m = some v := by
  intro m
  induction m with
  | nil => rintro _ ⟨p, hp, _⟩; exact absurd hp (List.not_mem_nil p)
  | cons q m ih =>
    rintro hall ⟨p, hp, hpk⟩
    obtain ⟨qk, qv⟩ := q
    by_cases h : qk = k
    · have hbeq : (k == qk) = true := by simp [h]
      simp only [List.lookup_cons, hbeq]
      rw [show qv = v from hall (qk, qv) (List.mem_cons_self _ m) h]
    · have hbeq : (k == qk) = false := by
        simp only [beq_eq_false_iff_ne, ne_eq]
        exact fun he => h he.symm
      simp only [List.lookup_cons, hbeq]
      refine ih (fun p hp hk => hall p (List.mem_cons_of_mem _ hp) hk)
        ⟨p, ?_, hpk⟩
      rcases List.mem_cons.mp hp with h1 | h1
      · exact absurd (by rw [h1] at hpk; exact hpk) h
      · exact h1

/-- Association-list lookup with no hit. -/
theorem lookup_none_of {k : String} :
    ∀ (m : List (String × Option String)), (∀ p ∈ m, p.1 ≠ k) →
      List.lookup k m = none := by
  intro m
  induction m with
  | nil => intro _; rfl
  | cons q m ih =>
    intro hall
    obtain ⟨qk, qv⟩ := q
    have hbeq : (k == qk) = false := by
      simp only [beq_eq_false_iff_ne, ne_eq]
      exact fun he => hall (qk, qv) (List.mem_cons_self _ m) he.symm
    simp only [List.lookup_cons, hbeq]
    exact ih (fun p hp => hall p (List.mem_cons_of_mem _ hp))

/-! ### The mapping loops -/

/-- A filter and its complement split the length. -/
theorem length_filter_not {α : Type} (p q : α → Bool)
    (hpq : ∀ a, q a = !p a) :
    ∀ l : List α, (l.filter p).length + (l.filter q).length = l.length := by
  intro l
  induction l with
  | nil => rfl
  | cons a l ih =>
    cases ha : p a <;>
      simp [List.filter_cons, ha, hpq a, List.length_cons] <;> omega

/-- One mapped procured-meds row per input row. -/
theorem preparePm_length (jsDate : String → Option Int) :
    ∀ (rows : List PmInput) (i : Nat),
      (preparePm jsDate rows i).length = rows.length := by
  intro rows
  induction rows with
  | nil => intro i; rfl
  | cons r rs ih =>
    intro i
    simp only [preparePm, List.length_cons, ih (i + 1)]

/-- Mapped procured-meds rows carry indices at or above the start index. -/
theorem preparePm_rowIndex_ge (jsDate : String → Option Int) :
    ∀ (rows : List PmInput) (i : Nat),
      ∀ x ∈ preparePm jsDate rows i, i ≤ x.rowIndex := by
  intro rows
  induction rows with
  | nil => intro i x hx; exact absurd hx (List.not_mem_nil x)
  | cons r rs ih =>
    intro i x hx
    rcases List.mem_cons.mp hx with h1 | h1
    · subst h1; exact Nat.le_refl i
    · exact Nat.le_of_succ_le (ih (i + 1) x h1)

/-- Mapped procured-meds rows have strictly increasing indices. -/
theorem preparePm_pairwise (jsDate : String → Option Int) :
    ∀ (rows : List PmInput) (i : Nat),
      (preparePm jsDate rows i).Pairwise
        (fun a b => a.rowIndex < b.rowIndex) := by
  intro rows
  induction rows with
  | nil => intro i; exact List.Pairwise.nil
  | cons r rs ih =>
    intro i
    refine List.Pairwise.cons ?_ (ih (i + 1))
    intro x hx
    exact Nat.lt_of_lt_of_le (Nat.lt_succ_self i)
      (preparePm_rowIndex_ge jsDate rs (i + 1) x hx)

/-- The IAR mapping loop on success: one prepared row per input row, field
provenance, and strictly increasing indices. -/
theorem prepareIarGo_ok_facts (jsDate : String → Option Int) :
    ∀ (rows : List IarInput) (idx : Nat) (mapped : List IarPrepared),
      prepareIarGo jsDate rows idx = .ok mapped →
      mapped.length = rows.length ∧
      (∀ q ∈ mapped, idx ≤ q.rowIndex ∧
        ∃ r₀ ∈ rows, q = mkIarPrepared r₀ q.dateOfInspection
          q.expirationDate q.rowIndex) ∧
      mapped.Pairwise (fun a b => a.rowIndex < b.rowIndex) := by
  intro rows
  induction rows with
  | nil =>
    intro idx mapped h
    have h' : (Except.ok [] : Except String (List IarPrepared))
        = .ok mapped := h
    injection h' with h2
    subst h2
    exact ⟨rfl, fun q hq => absurd hq (List.not_mem_nil q),
      List.Pairwise.nil⟩
  | cons r rs ih =>
    intro idx mapped h
    have step : ∀ (d : Int) (v : Option Int),
        (prepareIarGo jsDate rs (idx + 1)).map
          (fun ms => mkIarPrepared r d v idx :: ms) = .ok mapped →
        mapped.length = (r :: rs).length ∧
        (∀ q ∈ mapped, idx ≤ q.rowIndex ∧
          ∃ r₀ ∈ r :: rs, q = mkIarPrepared r₀ q.dateOfInspection
            q.expirationDate q.rowIndex) ∧
        mapped.Pairwise (fun a b => a.rowIndex < b.rowIndex) := by
      intro d v hm
      cases hrec : prepareIarGo jsDate rs (idx + 1) with
      | error e => rw [hrec] at hm; exact absurd hm (by simp [Except.map])
      | ok ms =>
        rw [hrec] at hm
        have hm' : (Except.ok (mkIarPrepared r d v idx :: ms) :
            Except String (List IarPrepared)) = .ok mapped := hm
        injection hm' with hm2
        subst hm2
        obtain ⟨ihlen, ihmem, ihpair⟩ := ih (idx + 1) ms hrec
        refine ⟨by simp [List.length_cons, ihlen], ?_, ?_⟩
        · intro q hq
          rcases List.mem_cons.mp hq with h1 | h1
          · subst h1
            exact ⟨Nat.le_refl idx, r, List.mem_cons_self r rs, rfl⟩
          · obtain ⟨hge, r₀, hr₀, he⟩ := ihmem q h1
            exact ⟨Nat.le_of_succ_le hge, r₀,
              List.mem_cons_of_mem r hr₀, he⟩
        · refine List.Pairwise.cons ?_ ihpair
          intro x hx
          exact Nat.lt_of_lt_of_le (Nat.lt_succ_self idx) (ihmem x hx).1
    cases hd : parseDateOnly jsDate r.dateOfInspection with
    | none =>
      simp only [prepareIarGo, hd] at h
      exact Except.noConfusion h
    | some d =>
      cases hexp : r.expirationDate with
      | none =>
        simp only [prepareIarGo, hd, hexp] at h
        exact step d none h
      | some e =>
        by_cases he : e = ""
        · simp only [prepareIarGo, hd, hexp, if_pos he] at h
          exact step d none h
        · cases hed : parseDateOnly jsDate e with
          | none =>
            simp only [prepareIarGo, hd, hexp, if_neg he, hed] at h
            exact Except.noConfusion h
          | some ed =>
            simp only [prepareIarGo, hd, hexp, if_neg he, hed] at h
            exact step d (some ed) h

/-- The IAR mapping loop fail-fast: the first row with a bad date aborts
with that row's message, carrying the row's absolute index. -/
theorem prepareIarGo_firstError (jsDate : String → Option Int) :
    ∀ (rows : List IarInput) (i : Nat) (hi : i < rows.length) (idx : Nat),
      iarRowBadDate jsDate (rows.get ⟨i, hi⟩) = true →
      (∀ j (hj : j < rows.length), j < i →
        iarRowBadDate jsDate (rows.get ⟨j, hj⟩) = false) →
      prepareIarGo jsDate rows idx
        = .error (iarBadMsgOf jsDate (rows.get ⟨i, hi⟩) (idx + i)) := by
  intro rows
  induction rows with
  | nil => intro i hi; exact absurd hi (by simp)
  | cons r rs ih =>
    intro i hi idx hbad hfirst
    cases i with
    | zero =>
      have hbad' : iarRowBadDate jsDate r = true := hbad
      cases hd : parseDateOnly jsDate r.dateOfInspection with
      | none => simp [prepareIarGo, iarBadMsgOf, hd]
      | some d =>
        cases hexp : r.expirationDate with
        | none => simp [iarRowBadDate, hd, hexp] at hbad'
        | some e =>
          rw [iarRowBadDate, hd, hexp] at hbad'
          simp only [Option.isNone_some, Bool.false_or,
            Bool.and_eq_true] at hbad'
          have hne : ¬ e = "" := by simpa using hbad'.1
          have hnone : parseDateOnly jsDate e = none := by
            cases hq : parseDateOnly jsDate e with
            | none => rfl
            | some _ => rw [hq] at hbad'; simp at hbad'
          simp [prepareIarGo, iarBadMsgOf, hd, hexp, hne, hnone]
    | succ j =>
      have hgood : iarRowBadDate jsDate r = false :=
        hfirst 0 (Nat.succ_pos rs.length) (Nat.succ_pos j)
      have hj' : j < rs.length := Nat.lt_of_succ_lt_succ hi
      have hbad' : iarRowBadDate jsDate (rs.get ⟨j, hj'⟩) = true := hbad
      have hfirst' : ∀ k (hk : k < rs.length), k < j →
          iarRowBadDate jsDate (rs.get ⟨k, hk⟩) = false := by
        intro k hk hkj
        exact hfirst (k + 1) (Nat.succ_lt_succ hk) (Nat.succ_lt_succ hkj)
      have hrec := ih j hj' (idx + 1) hbad' hfirst'
      have harith : idx + 1 + j = idx + (j + 1) := by omega
      rw [iarRowBadDate, Bool.or_eq_false_iff] at hgood
      cases hd : parseDateOnly jsDate r.dateOfInspection with
      | none => rw [hd] at hgood; simp at hgood
      | some d =>
        have hshow : prepareIarGo jsDate (r :: rs) idx
            = .error (iarBadMsgOf jsDate (rs.get ⟨j, hj'⟩) (idx + 1 + j)) := by
          cases hexp : r.expirationDate with
          | none => simp only [prepareIarGo, hd, hexp, hrec]; rfl
          | some e =>
            by_cases he : e = ""
            · simp only [prepareIarGo, hd, hexp, if_pos he, hrec]; rfl
            · rw [hd, hexp] at hgood
              have hgood2 := hgood.2
              simp only [Bool.and_eq_false_iff] at hgood2
              rcases hgood2 with hg | hg
              · exact absurd hg (by simpa using he)
              · cases hed : parseDateOnly jsDate e with
                | none => rw [hed] at hg; simp at hg
                | some ed =>
                  simp only [prepareIarGo, hd, hexp, if_neg he, hed, hrec]
                  rfl
        rw [hshow, harith]
        rfl

/-- The kept rows form a sublist of the input rows. -/
theorem dedupScan_kept_sublist {ρ : Type} (key : ρ → String) :
    ∀ (rows : List ρ) (seen : List String),
      (dedupScan key rows seen).2.Sublist rows := by
  intro rows
  induction rows with
  | nil => intro seen; exact List.Sublist.refl _
  | cons r rs ih =>
    intro seen
    by_cases h : seen.contains (key r)
    · simp only [dedupScan, h, if_true]
      exact (ih seen).trans (List.sublist_cons_self r rs)
    · simp only [dedupScan, h, if_false, Bool.false_eq_true]
      exact (ih (key r :: seen)).cons₂ r

/-- A list strictly increasing on an index is duplicate-free. -/
theorem pairwise_lt_nodup {σ : Type} (f : σ → Nat) (l : List σ)
    (h : l.Pairwise (fun a b => f a < f b)) : l.Nodup := by
  refine h.imp ?_
  intro a b hab he
  rw [he] at hab
  exact Nat.lt_irrefl _ hab

/-- For a duplicate criterion matching the existence of an earlier row with
the same key, the kept rows are exactly the first occurrences, in order. -/
theorem dedupScan_kept_eq_filter {ρ : Type} (key : ρ → String)
    (idx : ρ → Nat) (rows : List ρ)
    (hrows : rows.Pairwise (fun a b => idx a < idx b)) (dup : ρ → Bool)
    (hdup : ∀ r ∈ rows, (dup r = true ↔
      ∃ q ∈ rows, idx q < idx r ∧ key q = key r)) :
    (dedupScan key rows []).2 = rows.filter (fun r => !dup r) := by
  have hseen : ∀ s : String, ([] : List String).contains s = true ↔
      ∃ h ∈ ([] : List ρ), key h = s := by
    intro s
    rw [strContains_iff]
    simp
  have hord : ∀ h ∈ ([] : List ρ), ∀ r ∈ rows, idx h < idx r := by
    intro h hh
    exact absurd hh (List.not_mem_nil h)
  obtain ⟨hdups, hkeeps⟩ :=
    dedupScan_first_spec key idx rows [] [] hseen hord hrows
  have hmem : ∀ r, r ∈ (dedupScan key rows []).2 ↔
      r ∈ rows ∧ dup r = false := by
    intro r
    constructor
    · intro hr
      have hrrows := dedupScan_mem_right key hr
      refine ⟨hrrows, ?_⟩
      cases hdr : dup r with
      | false => rfl
      | true =>
        obtain ⟨q, hq, hlt, hkeq⟩ := (hdup r hrrows).mp hdr
        exact absurd hkeq (hkeeps r hr q (Or.inr hq) hlt)
    · rintro ⟨hr, hdf⟩
      rcases List.mem_append.mp
          ((dedupScan_perm key rows []).mem_iff.mpr hr) with h1 | h1
      · obtain ⟨q, hq, hlt, hkeq⟩ := hdups r h1
        rcases hq with h2 | h2
        · exact absurd h2 (List.not_mem_nil q)
        · have := (hdup r hr).mpr ⟨q, h2, hlt, hkeq⟩
          rw [hdf] at this
          exact absurd this (by decide)
      · exact h1
  have hkpair : (dedupScan key rows []).2.Pairwise
      (fun a b => idx a < idx b) :=
    List.Pairwise.sublist (dedupScan_kept_sublist key rows []) hrows
  have hfpair : (rows.filter (fun r => !dup r)).Pairwise
      (fun a b => idx a < idx b) :=
    List.Pairwise.sublist (List.filter_sublist rows) hrows
  have hperm : List.Perm (dedupScan key rows []).2
      (rows.filter (fun r => !dup r)) := by
    apply List.Subperm.antisymm
    · refine (pairwise_lt_nodup idx _ hkpair).subperm ?_
      intro x hx
      have h2 := (hmem x).mp hx
      exact List.mem_filter.mpr ⟨h2.1, by simp [h2.2]⟩
    · refine (pairwise_lt_nodup idx _ hfpair).subperm ?_
      intro x hx
      have h2 := List.mem_filter.mp hx
      refine (hmem x).mpr ⟨h2.1, ?_⟩
      have h3 := h2.2
      cases hdx : dup x with
      | false => rfl
      | true => rw [hdx] at h3; exact absurd h3 (by decide)
  haveI : IsAntisymm ρ (fun a b => idx a < idx b) :=
    ⟨fun _ _ h1 h2 => absurd h2 (Nat.lt_asymm h1)⟩
  exact List.eq_of_perm_of_sorted hperm hkpair hfpair

/-- The upload-duplicate criterion matches the string key of the
procured-meds route, whose key is injective with no proviso. -/
theorem pmDup_iff (mapped : List PmPrepared) (r : PmPrepared) :
    pmDupOfEarlier mapped r = true ↔
      ∃ q ∈ mapped, q.rowIndex < r.rowIndex ∧
        pmKeyOfPrepared q = pmKeyOfPrepared r := by
  rw [pmDupOfEarlier, List.any_eq_true]
  constructor
  · rintro ⟨q, hq, hb⟩
    simp only [Bool.and_eq_true, decide_eq_true_eq, beq_iff_eq] at hb
    refine ⟨q, hq, hb.1.1, ?_⟩
    rw [pmKeyOfPrepared, pmKeyOfPrepared, hb.1.2, hb.2]
  · rintro ⟨q, hq, hlt, hkeq⟩
    obtain ⟨hpo, hit⟩ := pmKey_inj hkeq
    exact ⟨q, hq, by simp [hlt, hpo, hit]⟩

/-- The upload-duplicate criterion matches the string key of the IAR route,
provided the PO numbers of the mapped rows contain no colon. -/
theorem iarDup_iff (mapped : List IarPrepared)
    (hcf : ∀ q ∈ mapped, ':' ∉ q.poNumber.data) (r : IarPrepared)
    (hr : r ∈ mapped) :
    iarDupOfEarlier mapped r = true ↔
      ∃ q ∈ mapped, q.rowIndex < r.rowIndex ∧
        iarKeyOfPrepared q = iarKeyOfPrepared r := by
  rw [iarDupOfEarlier, List.any_eq_true]
  constructor
  · rintro ⟨q, hq, hb⟩
    simp only [Bool.and_eq_true, decide_eq_true_eq, beq_iff_eq] at hb
    refine ⟨q, hq, hb.1.1.1, ?_⟩
    rw [iarKeyOfPrepared, iarKeyOfPrepared, hb.1.1.2, hb.1.2, hb.2]
  · rintro ⟨q, hq, hlt, hkeq⟩
    obtain ⟨hia, hpo, hit⟩ := iarKey_inj (hcf q hq) (hcf r hr) hkeq
    exact ⟨q, hq, by simp [hlt, hia, hpo, hit]⟩

/-- The deduplicated procured-meds rows are the first occurrences. -/
theorem pmKept_eq_filter (mapped : List PmPrepared)
    (hpair : mapped.Pairwise (fun a b => a.rowIndex < b.rowIndex)) :
    (dedupScan pmKeyOfPrepared mapped []).2
      = mapped.filter (fun r => !pmDupOfEarlier mapped r) :=
  dedupScan_kept_eq_filter pmKeyOfPrepared (fun r => r.rowIndex) mapped
    hpair (pmDupOfEarlier mapped) (fun r _ => pmDup_iff mapped r)

/-- The deduplicated IAR rows are the first occurrences, provided the PO
numbers of the mapped rows contain no colon. -/
theorem iarKept_eq_filter (mapped : List IarPrepared)
    (hpair : mapped.Pairwise (fun a b => a.rowIndex < b.rowIndex))
    (hcf : ∀ q ∈ mapped, ':' ∉ q.poNumber.data) :
    (dedupScan iarKeyOfPrepared mapped []).2
      = mapped.filter (fun r => !iarDupOfEarlier mapped r) :=
  dedupScan_kept_eq_filter iarKeyOfPrepared (fun r => r.rowIndex) mapped
    hpair (iarDupOfEarlier mapped) (fun r hr => iarDup_iff mapped hcf r hr)

/-- The canonical entry keeps the row's index. -/
theorem canonPmLog_rowIndex (mapped : List PmPrepared)
    (existing : List String) (r : PmPrepared) :
    (canonPmLog mapped existing r).rowIndex = r.rowIndex := by
  rw [canonPmLog]
  split
  · rfl
  · rw [mkPmKeptLog]
    split <;> rfl

/-- The canonical entry keeps the row's index. -/
theorem canonIarLog_rowIndex (mapped : List IarPrepared)
    (existing : List String) (r : IarPrepared) :
    (canonIarLog mapped existing r).rowIndex = r.rowIndex := by
  rw [canonIarLog]
  split
  · rfl
  · rw [mkIarKeptLog]
    split <;> rfl

/-- The sorted procured-meds ledger is the canonical one: one entry per
mapped row, in input order. -/
theorem pmLedger_char (mapped : List PmPrepared) (existing : List String)
    (hpair : mapped.Pairwise (fun a b => a.rowIndex < b.rowIndex)) :
    sortPmLogs ((dedupScan pmKeyOfPrepared mapped []).1.map mkPmDupLog
        ++ (dedupScan pmKeyOfPrepared mapped []).2.map
          (mkPmKeptLog existing))
      = mapped.map (canonPmLog mapped existing) := by
  have hseen : ∀ s : String, ([] : List String).contains s = true ↔
      ∃ h ∈ ([] : List PmPrepared), pmKeyOfPrepared h = s := by
    intro s
    rw [strContains_iff]
    simp
  have hord : ∀ h ∈ ([] : List PmPrepared), ∀ r ∈ mapped,
      h.rowIndex < r.rowIndex := by
    intro h hh
    exact absurd hh (List.not_mem_nil h)
  obtain ⟨hdups, hkeeps⟩ := dedupScan_first_spec pmKeyOfPrepared
    (fun r => r.rowIndex) mapped [] [] hseen hord hpair
  have hd1 : ∀ r ∈ (dedupScan pmKeyOfPrepared mapped []).1,
      pmDupOfEarlier mapped r = true := by
    intro r hr
    obtain ⟨q, hq, hlt, hkeq⟩ := hdups r hr
    rcases hq with h1 | h1
    · exact absurd h1 (List.not_mem_nil q)
    · exact (pmDup_iff mapped r).mpr ⟨q, h1, hlt, hkeq⟩
  have hd2 : ∀ r ∈ (dedupScan pmKeyOfPrepared mapped []).2,
      pmDupOfEarlier mapped r = false := by
    intro r hr
    cases hdr : pmDupOfEarlier mapped r with
    | false => rfl
    | true =>
      obtain ⟨q, hq, hlt, hkeq⟩ := (pmDup_iff mapped r).mp hdr
      exact absurd hkeq (hkeeps r hr q (Or.inr hq) hlt)
  have hmap1 : (dedupScan pmKeyOfPrepared mapped []).1.map mkPmDupLog
      = (dedupScan pmKeyOfPrepared mapped []).1.map
        (canonPmLog mapped existing) :=
    List.map_congr_left (fun r hr => by
      rw [canonPmLog, if_pos (hd1 r hr)])
  have hmap2 : (dedupScan pmKeyOfPrepared mapped []).2.map
      (mkPmKeptLog existing)
      = (dedupScan pmKeyOfPrepared mapped []).2.map
        (canonPmLog mapped existing) :=
    List.map_congr_left (fun r hr => by simp [canonPmLog, hd2 r hr])
  have hperm : List.Perm
      ((dedupScan pmKeyOfPrepared mapped []).1.map mkPmDupLog
        ++ (dedupScan pmKeyOfPrepared mapped []).2.map
          (mkPmKeptLog existing))
      (mapped.map (canonPmLog mapped existing)) := by
    rw [hmap1, hmap2, ← List.map_append]
    exact (dedupScan_perm pmKeyOfPrepared mapped []).map
      (canonPmLog mapped existing)
  have hcanpair : (mapped.map (canonPmLog mapped existing)).Pairwise
      (fun a b => a.rowIndex < b.rowIndex) := by
    rw [List.pairwise_map]
    refine hpair.imp ?_
    intro a b h
    rw [canonPmLog_rowIndex, canonPmLog_rowIndex]
    exact h
  exact sort_canonical PmLog.rowIndex _ _ hperm hcanpair

/-- The sorted IAR ledger is the canonical one, provided the PO numbers of
the mapped rows contain no colon. -/
theorem iarLedger_char (mapped : List IarPrepared) (existing : List String)
    (hpair : mapped.Pairwise (fun a b => a.rowIndex < b.rowIndex))
    (hcf : ∀ q ∈ mapped, ':' ∉ q.poNumber.data) :
    sortIarLogs ((dedupScan iarKeyOfPrepared mapped []).1.map mkIarDupLog
        ++ (dedupScan iarKeyOfPrepared mapped []).2.map
          (mkIarKeptLog existing))
      = mapped.map (canonIarLog mapped existing) := by
  have hseen : ∀ s : String, ([] : List String).contains s = true ↔
      ∃ h ∈ ([] : List IarPrepared), iarKeyOfPrepared h = s := by
    intro s
    rw [strContains_iff]
    simp
  have hord : ∀ h ∈ ([] : List IarPrepared), ∀ r ∈ mapped,
      h.rowIndex < r.rowIndex := by
    intro h hh
    exact absurd hh (List.not_mem_nil h)
  obtain ⟨hdups, hkeeps⟩ := dedupScan_first_spec iarKeyOfPrepared
    (fun r => r.rowIndex) mapped [] [] hseen hord hpair
  have hd1 : ∀ r ∈ (dedupScan iarKeyOfPrepared mapped []).1,
      iarDupOfEarlier mapped r = true := by
    intro r hr
    obtain ⟨q, hq, hlt, hkeq⟩ := hdups r hr
    rcases hq with h1 | h1
    · exact absurd h1 (List.not_mem_nil q)
    · exact (iarDup_iff mapped hcf r
        (dedupScan_mem_left iarKeyOfPrepared hr)).mpr ⟨q, h1, hlt, hkeq⟩
  have hd2 : ∀ r ∈ (dedupScan iarKeyOfPrepared mapped []).2,
      iarDupOfEarlier mapped r = false := by
    intro r hr
    cases hdr : iarDupOfEarlier mapped r with
    | false => rfl
    | true =>
      obtain ⟨q, hq, hlt, hkeq⟩ := (iarDup_iff mapped hcf r
        (dedupScan_mem_right iarKeyOfPrepared hr)).mp hdr
      exact absurd hkeq (hkeeps r hr q (Or.inr hq) hlt)
  have hmap1 : (dedupScan iarKeyOfPrepared mapped []).1.map mkIarDupLog
      = (dedupScan iarKeyOfPrepared mapped []).1.map
        (canonIarLog mapped existing) :=
    List.map_congr_left (fun r hr => by
      rw [canonIarLog, if_pos (hd1 r hr)])
  have hmap2 : (dedupScan iarKeyOfPrepared mapped []).2.map
      (mkIarKeptLog existing)
      = (dedupScan iarKeyOfPrepared mapped []).2.map
        (canonIarLog mapped existing) :=
    List.map_congr_left (fun r hr => by simp [canonIarLog, hd2 r hr])
  have hperm : List.Perm
      ((dedupScan iarKeyOfPrepared mapped []).1.map mkIarDupLog
        ++ (dedupScan iarKeyOfPrepared mapped []).2.map
          (mkIarKeptLog existing))
      (mapped.map (canonIarLog mapped existing)) := by
    rw [hmap1, hmap2, ← List.map_append]
    exact (dedupScan_perm iarKeyOfPrepared mapped []).map
      (canonIarLog mapped existing)
  have hcanpair : (mapped.map (canonIarLog mapped existing)).Pairwise
      (fun a b => a.rowIndex < b.rowIndex) := by
    rw [List.pairwise_map]
    refine hpair.imp ?_
    intro a b h
    rw [canonIarLog_rowIndex, canonIarLog_rowIndex]
    exact h
  exact sort_canonical IarLog.rowIndex _ _ hperm hcanpair

/-- Splitting the string key of a colon-free PO number recovers the pair. -/
theorem splitPoItemPair_pmKey {po : String} (n : Int)
    (h : ':' ∉ po.data) : splitPoItemPair (pmKey po n) = (po, some n) := by
  have h1 : jsSplitCC (pmKey po n).data = po.data :: [(Int.repr n).data] := by
    rw [pmKey_data, jsSplitCC_boundary _ h,
      jsSplitCC_colon_free (intRepr_colon_free n)]
  rw [splitPoItemPair, h1]
  show ((⟨po.data⟩ : String), jsNumberInt ⟨(Int.repr n).data⟩) = (po, some n)
  rw [show (⟨po.data⟩ : String) = po from rfl,
    show (⟨(Int.repr n).data⟩ : String) = Int.repr n from rfl,
    jsNumberInt_repr]

/-- C1: the claimed first-occurrence-wins dedup over the composite key is
false for the IAR route as stated: the string key conflates distinct
composite keys.  Rows A (iar `a::b`, po `c`, item 1) and B (iar `a`, po
`b::c`, item 1) share no composite key, yet row B is reported skipped /
duplicate-in-upload and excluded. -/
theorem c1_dedup_counterexample :
    (¬ (jsTrim cexIarRowB.iarNumber = jsTrim cexIarRowA.iarNumber
        ∧ jsTrim cexIarRowB.poNumber = jsTrim cexIarRowA.poNumber
        ∧ cexIarRowB.itemNumber = cexIarRowA.itemNumber))
    ∧ (iarCommitPOST jsDateCex [] [] [cexIarRowA, cexIarRowB]).1
      = .ok ⟨1, 2, 1,
        [⟨"a::b", "c", 1, .inserted, none⟩,
         ⟨"a", "b::c", 1, .skipped, some .duplicateInUpload⟩]⟩ := by
  decide

/-- C1 (amended): both batch commits dedup first-occurrence-wins and return
one ledger entry per mapped row in input order, later rows of a group
marked skipped / duplicate-in-upload and excluded from further processing.
This is unconditional for the procured-meds route; for the IAR route it
requires that no trimmed PO number contain a colon, since its string key
`iar::po::item` is injective on composite keys only under that proviso. -/
theorem c1_dedup_amended (jsDate : String → Option Int)
    (pmStore : List ProcuredMed) (iarStore : List IarRecord)
    (rows : List PmInput) (irows : List IarInput)
    (hpo : ∀ r ∈ irows, ':' ∉ (jsTrim r.poNumber).data) :
    ((pmCommitPOST jsDate pmStore rows).1.logs
        = pmLedgerSpec jsDate pmStore rows
      ∧ pmDeduped jsDate rows = pmKeptRows jsDate rows)
    ∧ (∀ mapped, prepareIarGo jsDate irows 0 = .ok mapped →
        iarDeduped mapped = iarKeptRows mapped
          ∧ ∃ resp,
              (iarCommitPOST jsDate pmStore iarStore irows).1 = .ok resp
              ∧ resp.logs = iarLedgerSpec iarStore mapped) := by
  constructor
  · have hpair := preparePm_pairwise jsDate rows 0
    have hkept : (dedupScan pmKeyOfPrepared (preparePm jsDate rows 0) []).2
        = pmKeptRows jsDate rows :=
      pmKept_eq_filter (preparePm jsDate rows 0) hpair
    refine ⟨?_, hkept⟩
    have hrfl : (pmCommitPOST jsDate pmStore rows).1.logs
        = (sortPmLogs
            ((dedupScan pmKeyOfPrepared (preparePm jsDate rows 0) []).1.map
                mkPmDupLog
              ++ (dedupScan pmKeyOfPrepared
                    (preparePm jsDate rows 0) []).2.map
                (mkPmKeptLog (collectExistingPm pmStore
                  (dedupScan pmKeyOfPrepared
                    (preparePm jsDate rows 0) []).2)))).map
          stripPmLog := rfl
    rw [hrfl, pmLedger_char _ _ hpair, hkept, pmLedgerSpec, List.map_map]
    rfl
  · intro mapped hprep
    obtain ⟨hlen, hmemf, hpair⟩ :=
      prepareIarGo_ok_facts jsDate irows 0 mapped hprep
    have hcf : ∀ q ∈ mapped, ':' ∉ q.poNumber.data := by
      intro q hq
      obtain ⟨r₀, hr₀, he⟩ := (hmemf q hq).2
      have hqpo : q.poNumber = jsTrim r₀.poNumber := by rw [he]; rfl
      rw [hqpo]
      exact hpo r₀ hr₀
    have hkept : (dedupScan iarKeyOfPrepared mapped []).2
        = iarKeptRows mapped := iarKept_eq_filter mapped hpair hcf
    have hout : (iarCommitPOST jsDate pmStore iarStore irows).1
        = .ok ⟨(iarPayload pmStore iarStore mapped).length, mapped.length,
            ((sortIarLogs
              ((dedupScan iarKeyOfPrepared mapped []).1.map mkIarDupLog
                ++ (dedupScan iarKeyOfPrepared mapped []).2.map
                  (mkIarKeptLog (collectExistingIar iarStore
                    (dedupScan iarKeyOfPrepared mapped []).2)))).filter
              (fun l => l.result = .skipped)).length,
            (sortIarLogs
              ((dedupScan iarKeyOfPrepared mapped []).1.map mkIarDupLog
                ++ (dedupScan iarKeyOfPrepared mapped []).2.map
                  (mkIarKeptLog (collectExistingIar iarStore
                    (dedupScan iarKeyOfPrepared mapped []).2)))).map
              stripIarLog⟩ := by
      rw [iarCommitPOST, hprep]
      rfl
    refine ⟨hkept, _, hout, ?_⟩
    show (sortIarLogs
        ((dedupScan iarKeyOfPrepared mapped []).1.map mkIarDupLog
          ++ (dedupScan iarKeyOfPrepared mapped []).2.map
            (mkIarKeptLog (collectExistingIar iarStore
              (dedupScan iarKeyOfPrepared mapped []).2)))).map
        stripIarLog = iarLedgerSpec iarStore mapped
    rw [iarLedger_char _ _ hpair hcf, hkept, iarLedgerSpec, List.map_map]
    rfl

/-- C1 amended theorem instantiated on a concrete commit of two
procured-meds rows sharing a key and one well-formed IAR row. -/
theorem c1_dedup_amended_witness :
    (∀ r ∈ [cexIarRowD], ':' ∉ (jsTrim r.poNumber).data) ∧
    (((pmCommitPOST jsDateCex [] [cexPmRow1, cexPmRow2]).1.logs
        = pmLedgerSpec jsDateCex [] [cexPmRow1, cexPmRow2]
      ∧ pmDeduped jsDateCex [cexPmRow1, cexPmRow2]
        = pmKeptRows jsDateCex [cexPmRow1, cexPmRow2])
    ∧ (∀ mapped, prepareIarGo jsDateCex [cexIarRowD] 0 = .ok mapped →
        iarDeduped mapped = iarKeptRows mapped
          ∧ ∃ resp,
              (iarCommitPOST jsDateCex [] [] [cexIarRowD]).1 = .ok resp
              ∧ resp.logs = iarLedgerSpec [] mapped)) :=
  ⟨by decide, c1_dedup_amended jsDateCex [] [] [cexPmRow1, cexPmRow2]
    [cexIarRowD] (by decide)⟩

/-- The counting skeleton shared by both commit routes: inserted plus
skipped ledger entries account for every mapped row, and the ledger has one
entry per mapped row. -/
theorem commit_counts_core {ρ σ τ : Type} (dk1 dk2 mapped : List ρ)
    (hperm : List.Perm (dk1 ++ dk2) mapped)
    (dupLog keptLog : ρ → σ) (skippedB : σ → Bool)
    (hdupSkip : ∀ r, skippedB (dupLog r) = true)
    (keptPred : ρ → Bool)
    (hkeptSkip : ∀ r, skippedB (keptLog r) = keptPred r)
    (insPred : ρ → Bool) (hins : ∀ r, insPred r = !keptPred r)
    (toRec : ρ → τ)
    (sortFn : List σ → List σ)
    (hsort : ∀ l, List.Perm (sortFn l) l) :
    ((dk2.filter insPred).map toRec).length
        + ((sortFn (dk1.map dupLog ++ dk2.map keptLog)).filter
            skippedB).length
      = mapped.length
    ∧ (sortFn (dk1.map dupLog ++ dk2.map keptLog)).length
      = mapped.length := by
  have e1 : ((dk2.filter insPred).map toRec).length
      = (dk2.filter insPred).length := List.length_map _ _
  have e2 : ((sortFn (dk1.map dupLog ++ dk2.map keptLog)).filter
        skippedB).length
      = ((dk1.map dupLog ++ dk2.map keptLog).filter skippedB).length :=
    ((hsort _).filter skippedB).length_eq
  have e3a : (dk1.map dupLog).filter skippedB = dk1.map dupLog :=
    List.filter_eq_self.mpr (fun a ha => by
      obtain ⟨r, hr, hre⟩ := List.mem_map.mp ha
      rw [← hre]
      exact hdupSkip r)
  have e3b : (dk2.map keptLog).filter skippedB
      = (dk2.filter keptPred).map keptLog := by
    rw [List.filter_map]
    have e := List.filter_congr (l := dk2) (fun r _ => hkeptSkip r)
    rw [show List.filter (skippedB ∘ keptLog) dk2
      = List.filter keptPred dk2 from e]
  have e4 : (dk2.filter keptPred).length + (dk2.filter insPred).length
      = dk2.length := length_filter_not keptPred insPred hins dk2
  have e5 : dk1.length + dk2.length = mapped.length := by
    have h := hperm.length_eq
    rw [List.length_append] at h
    exact h
  constructor
  · rw [e1, e2, List.filter_append, e3a, e3b, List.length_append,
      List.length_map, List.length_map]
    omega
  · rw [(hsort _).length_eq, List.length_append, List.length_map,
      List.length_map]
    exact e5

/-- The procured-meds response counts. -/
theorem pm_counts_aux (jsDate : String → Option Int)
    (pmStore : List ProcuredMed) (rows : List PmInput) :
    (pmCommitPOST jsDate pmStore rows).1.insertedCount
        + (pmCommitPOST jsDate pmStore rows).1.skippedDuplicates
      = (pmCommitPOST jsDate pmStore rows).1.totalReceived
    ∧ (pmCommitPOST jsDate pmStore rows).1.totalReceived = rows.length
    ∧ (pmCommitPOST jsDate pmStore rows).1.logs.length = rows.length := by
  have hks : ∀ r : PmPrepared,
      (fun l : PmLog => decide (l.result = LogResult.skipped))
        (mkPmKeptLog (collectExistingPm pmStore
          (dedupScan pmKeyOfPrepared (preparePm jsDate rows 0) []).2) r)
      = (collectExistingPm pmStore
          (dedupScan pmKeyOfPrepared
            (preparePm jsDate rows 0) []).2).contains
          (pmKeyOfPrepared r) := by
    intro r
    rw [mkPmKeptLog]
    by_cases hc : (collectExistingPm pmStore
        (dedupScan pmKeyOfPrepared
          (preparePm jsDate rows 0) []).2).contains
        (pmKeyOfPrepared r) = true
    · rw [if_pos hc, hc]
      rfl
    · rw [if_neg hc]
      have hc' : (collectExistingPm pmStore
          (dedupScan pmKeyOfPrepared
            (preparePm jsDate rows 0) []).2).contains
          (pmKeyOfPrepared r) = false := by
        cases h : (collectExistingPm pmStore
            (dedupScan pmKeyOfPrepared
              (preparePm jsDate rows 0) []).2).contains
            (pmKeyOfPrepared r) with
        | true => exact absurd h hc
        | false => rfl
      rw [hc']
      rfl
  have hcore := commit_counts_core
    (dedupScan pmKeyOfPrepared (preparePm jsDate rows 0) []).1
    (dedupScan pmKeyOfPrepared (preparePm jsDate rows 0) []).2
    (preparePm jsDate rows 0)
    (dedupScan_perm pmKeyOfPrepared (preparePm jsDate rows 0) [])
    mkPmDupLog
    (mkPmKeptLog (collectExistingPm pmStore
      (dedupScan pmKeyOfPrepared (preparePm jsDate rows 0) []).2))
    (fun l => decide (l.result = LogResult.skipped))
    (fun r => rfl)
    (fun r => (collectExistingPm pmStore
      (dedupScan pmKeyOfPrepared (preparePm jsDate rows 0) []).2).contains
      (pmKeyOfPrepared r))
    hks
    (fun r => !(collectExistingPm pmStore
      (dedupScan pmKeyOfPrepared (preparePm jsDate rows 0) []).2).contains
      (pmKeyOfPrepared r))
    (fun r => rfl)
    pmToRecord sortPmLogs (fun l => List.perm_insertionSort _ l)
  refine ⟨?_, ?_, ?_⟩
  · exact hcore.1
  · exact preparePm_length jsDate rows 0
  · show ((sortPmLogs
        ((dedupScan pmKeyOfPrepared (preparePm jsDate rows 0) []).1.map
            mkPmDupLog
          ++ (dedupScan pmKeyOfPrepared (preparePm jsDate rows 0) []).2.map
            (mkPmKeptLog (collectExistingPm pmStore
              (dedupScan pmKeyOfPrepared
                (preparePm jsDate rows 0) []).2)))).map stripPmLog).length
      = rows.length
    rw [List.length_map, hcore.2, preparePm_length]

/-- The IAR response counts. -/
theorem iar_counts_aux (jsDate : String → Option Int)
    (pmStore : List ProcuredMed) (iarStore : List IarRecord)
    (irows : List IarInput) :
    ∀ resp, (iarCommitPOST jsDate pmStore iarStore irows).1 = .ok resp →
      resp.insertedCount + resp.skippedDuplicates = resp.totalReceived
        ∧ resp.totalReceived = irows.length
        ∧ resp.logs.length = irows.length := by
  intro resp h
  cases hprep : prepareIarGo jsDate irows 0 with
  | error msg =>
    rw [iarCommitPOST, hprep] at h
    have h2 : IarCommitOut.badRequest msg = .ok resp := h
    exact IarCommitOut.noConfusion h2
  | ok mapped =>
    obtain ⟨hlen, -, -⟩ := prepareIarGo_ok_facts jsDate irows 0 mapped hprep
    rw [iarCommitPOST, hprep] at h
    have h2 : IarCommitOut.ok
        ⟨(((dedupScan iarKeyOfPrepared mapped []).2.filter
            (fun r => !(collectExistingIar iarStore
              (dedupScan iarKeyOfPrepared mapped []).2).contains
              (iarKeyOfPrepared r))).map
            (iarToRecord (buildManuMap pmStore
              ((uniquePoItems
                (dedupScan iarKeyOfPrepared mapped []).2).map
                splitPoItemPair)))).length,
          mapped.length,
          ((sortIarLogs
            ((dedupScan iarKeyOfPrepared mapped []).1.map mkIarDupLog
              ++ (dedupScan iarKeyOfPrepared mapped []).2.map
                (mkIarKeptLog (collectExistingIar iarStore
                  (dedupScan iarKeyOfPrepared mapped []).2)))).filter
            (fun l => decide (l.result = LogResult.skipped))).length,
          (sortIarLogs
            ((dedupScan iarKeyOfPrepared mapped []).1.map mkIarDupLog
              ++ (dedupScan iarKeyOfPrepared mapped []).2.map
                (mkIarKeptLog (collectExistingIar iarStore
                  (dedupScan iarKeyOfPrepared mapped []).2)))).map
            stripIarLog⟩
        = .ok resp := h
    injection h2 with h3
    subst h3
    have hks : ∀ r : IarPrepared,
        (fun l : IarLog => decide (l.result = LogResult.skipped))
          (mkIarKeptLog (collectExistingIar iarStore
            (dedupScan iarKeyOfPrepared mapped []).2) r)
        = (collectExistingIar iarStore
            (dedupScan iarKeyOfPrepared mapped []).2).contains
            (iarKeyOfPrepared r) := by
      intro r
      rw [mkIarKeptLog]
      by_cases hc : (collectExistingIar iarStore
          (dedupScan iarKeyOfPrepared mapped []).2).contains
          (iarKeyOfPrepared r) = true
      · rw [if_pos hc, hc]
        rfl
      · rw [if_neg hc]
        have hc' : (collectExistingIar iarStore
            (dedupScan iarKeyOfPrepared mapped []).2).contains
            (iarKeyOfPrepared r) = false := by
          cases hcc : (collectExistingIar iarStore
              (dedupScan iarKeyOfPrepared mapped []).2).contains
              (iarKeyOfPrepared r) with
          | true => exact absurd hcc hc
          | false => rfl
        rw [hc']
        rfl
    have hcore := commit_counts_core
      (dedupScan iarKeyOfPrepared mapped []).1
      (dedupScan iarKeyOfPrepared mapped []).2
      mapped
      (dedupScan_perm iarKeyOfPrepared mapped [])
      mkIarDupLog
      (mkIarKeptLog (collectExistingIar iarStore
        (dedupScan iarKeyOfPrepared mapped []).2))
      (fun l => decide (l.result = LogResult.skipped))
      (fun r => rfl)
      (fun r => (collectExistingIar iarStore
        (dedupScan iarKeyOfPrepared mapped []).2).contains
        (iarKeyOfPrepared r))
      hks
      (fun r => !(collectExistingIar iarStore
        (dedupScan iarKeyOfPrepared mapped []).2).contains
        (iarKeyOfPrepared r))
      (fun r => rfl)
      (iarToRecord (buildManuMap pmStore
        ((uniquePoItems (dedupScan iarKeyOfPrepared mapped []).2).map
          splitPoItemPair)))
      sortIarLogs (fun l => List.perm_insertionSort _ l)
    refine ⟨?_, ?_, ?_⟩
    · exact hcore.1
    · exact hlen
    · show ((sortIarLogs
          ((dedupScan iarKeyOfPrepared mapped []).1.map mkIarDupLog
            ++ (dedupScan iarKeyOfPrepared mapped []).2.map
              (mkIarKeptLog (collectExistingIar iarStore
                (dedupScan iarKeyOfPrepared mapped []).2)))).map
          stripIarLog).length = irows.length
      rw [List.length_map, hcore.2, hlen]

/-- C2: for both commit routes, insertedCount + skippedDuplicates equals
totalReceived; totalReceived is the number of validated rows submitted; and
the ledger holds exactly one entry per received row.  The IAR equalities
are read off the successful (200) response. -/
theorem c2_counts (jsDate : String → Option Int)
    (pmStore : List ProcuredMed) (iarStore : List IarRecord)
    (rows : List PmInput) (irows : List IarInput) :
    ((pmCommitPOST jsDate pmStore rows).1.insertedCount
        + (pmCommitPOST jsDate pmStore rows).1.skippedDuplicates
      = (pmCommitPOST jsDate pmStore rows).1.totalReceived
      ∧ (pmCommitPOST jsDate pmStore rows).1.totalReceived = rows.length
      ∧ (pmCommitPOST jsDate pmStore rows).1.logs.length = rows.length)
    ∧ (∀ resp, (iarCommitPOST jsDate pmStore iarStore irows).1 = .ok resp →
        resp.insertedCount + resp.skippedDuplicates = resp.totalReceived
          ∧ resp.totalReceived = irows.length
          ∧ resp.logs.length = irows.length) :=
  ⟨pm_counts_aux jsDate pmStore rows,
    iar_counts_aux jsDate pmStore iarStore irows⟩

/-- C2 instantiated on a concrete commit with one in-batch duplicate and
one stored collision. -/
theorem c2_counts_witness :
    ((pmCommitPOST jsDateCex [cexPmStoreRow2] [cexPmRow1, cexPmRow2]).1.insertedCount
        + (pmCommitPOST jsDateCex [cexPmStoreRow2]
            [cexPmRow1, cexPmRow2]).1.skippedDuplicates
      = (pmCommitPOST jsDateCex [cexPmStoreRow2]
          [cexPmRow1, cexPmRow2]).1.totalReceived
      ∧ (pmCommitPOST jsDateCex [cexPmStoreRow2]
          [cexPmRow1, cexPmRow2]).1.totalReceived
        = [cexPmRow1, cexPmRow2].length
      ∧ (pmCommitPOST jsDateCex [cexPmStoreRow2]
          [cexPmRow1, cexPmRow2]).1.logs.length
        = [cexPmRow1, cexPmRow2].length)
    ∧ (∀ resp,
        (iarCommitPOST jsDateCex [cexPmStoreRow2] [] [cexIarRowD]).1
          = .ok resp →
        resp.insertedCount + resp.skippedDuplicates = resp.totalReceived
          ∧ resp.totalReceived = [cexIarRowD].length
          ∧ resp.logs.length = [cexIarRowD].length) :=
  c2_counts jsDateCex [cexPmStoreRow2] [] [cexPmRow1, cexPmRow2]
    [cexIarRowD]

/-- A deduplicated procured-meds row's key is in the existing list exactly
when a stored record matches its composite key. -/
theorem collectExistingPm_contains (pmStore : List ProcuredMed)
    (deduped : List PmPrepared) (r : PmPrepared) (hr : r ∈ deduped) :
    (collectExistingPm pmStore deduped).contains (pmKeyOfPrepared r) = true
      ↔ ∃ s ∈ pmStore, s.poNumber = r.poNumber ∧ s.itemNo = r.itemNo := by
  rw [strContains_iff, collectExistingPm_mem]
  constructor
  · rintro ⟨s, hs, ⟨r', hr', h1, h2⟩, hkey⟩
    have hk := pmKey_inj
      (hkey : pmKey r.poNumber r.itemNo = pmKey s.poNumber s.itemNo)
    exact ⟨s, hs, hk.1.symm, hk.2.symm⟩
  · rintro ⟨s, hs, h1, h2⟩
    exact ⟨s, hs, ⟨r, hr, h1.symm, h2.symm⟩, by
      rw [pmKeyOfPrepared, pmKeyOfRecord, h1, h2]⟩

/-- A deduplicated IAR row's key is in the existing list exactly when a
stored record matches its composite key.  No colon proviso is needed: a
stored record only enters the list through a deduplicated row with exactly
its fields, and two deduplicated rows never share a string key. -/
theorem collectExistingIar_contains (iarStore : List IarRecord)
    (deduped : List IarPrepared)
    (hinj : ∀ a ∈ deduped, ∀ b ∈ deduped,
      iarKeyOfPrepared a = iarKeyOfPrepared b → a = b)
    (r : IarPrepared) (hr : r ∈ deduped) :
    (collectExistingIar iarStore deduped).contains (iarKeyOfPrepared r)
        = true
      ↔ ∃ s ∈ iarStore, s.iarNumber = r.iarNumber
          ∧ s.poNumber = r.poNumber ∧ s.itemNumber = r.itemNumber := by
  rw [strContains_iff, collectExistingIar_mem]
  constructor
  · rintro ⟨s, hs, ⟨r', hr', h1, h2, h3⟩, hkey⟩
    have hk2 : iarKeyOfPrepared r = iarKeyOfPrepared r' := by
      rw [hkey, iarKeyOfRecord, iarKeyOfPrepared, h1, h2, h3]
    have her : r = r' := hinj r hr r' hr' hk2
    rw [her]
    exact ⟨s, hs, h1.symm, h2.symm, h3.symm⟩
  · rintro ⟨s, hs, h1, h2, h3⟩
    exact ⟨s, hs, ⟨r, hr, h1.symm, h2.symm, h3.symm⟩, by
      rw [iarKeyOfPrepared, iarKeyOfRecord, h1, h2, h3]⟩

/-- C3: deduplicated rows whose composite key is already stored are logged
skipped / already-exists and kept out of the insert payload; all others are
logged inserted and form the payload.  Holds with no proviso for both
routes. -/
theorem c3_already_exists (jsDate : String → Option Int)
    (pmStore : List ProcuredMed) (iarStore : List IarRecord)
    (rows : List PmInput) (irows : List IarInput) :
    ((pmCommitPOST jsDate pmStore rows).2
        = pmStore ++ pmPayload jsDate pmStore rows
      ∧ ∀ r ∈ pmDeduped jsDate rows,
        ((∃ s ∈ pmStore, s.poNumber = r.poNumber ∧ s.itemNo = r.itemNo) →
          mkPmKeptLog (pmExisting jsDate pmStore rows) r
              = ⟨r.rowIndex, r.poNumber, r.itemNo, .skipped,
                  some .alreadyExists⟩
            ∧ pmToRecord r ∉ pmPayload jsDate pmStore rows)
        ∧ ((¬ ∃ s ∈ pmStore, s.poNumber = r.poNumber
              ∧ s.itemNo = r.itemNo) →
          mkPmKeptLog (pmExisting jsDate pmStore rows) r
              = ⟨r.rowIndex, r.poNumber, r.itemNo, .inserted, none⟩
            ∧ pmToRecord r ∈ pmPayload jsDate pmStore rows))
    ∧ (∀ mapped, prepareIarGo jsDate irows 0 = .ok mapped →
        (iarCommitPOST jsDate pmStore iarStore irows).2
            = iarStore ++ iarPayload pmStore iarStore mapped
          ∧ ∀ r ∈ iarDeduped mapped,
            ((∃ s ∈ iarStore, s.iarNumber = r.iarNumber
                ∧ s.poNumber = r.poNumber
                ∧ s.itemNumber = r.itemNumber) →
              mkIarKeptLog (iarExisting iarStore mapped) r
                  = ⟨r.rowIndex, r.iarNumber, r.poNumber, r.itemNumber,
                      .skipped, some .alreadyExists⟩
                ∧ iarToRecord (iarManu pmStore mapped) r
                    ∉ iarPayload pmStore iarStore mapped)
            ∧ ((¬ ∃ s ∈ iarStore, s.iarNumber = r.iarNumber
                ∧ s.poNumber = r.poNumber
                ∧ s.itemNumber = r.itemNumber) →
              mkIarKeptLog (iarExisting iarStore mapped) r
                  = ⟨r.rowIndex, r.iarNumber, r.poNumber, r.itemNumber,
                      .inserted, none⟩
                ∧ iarToRecord (iarManu pmStore mapped) r
                    ∈ iarPayload pmStore iarStore mapped)) := by
  constructor
  · refine ⟨rfl, ?_⟩
    intro r hr
    have hcont : (pmExisting jsDate pmStore rows).contains
        (pmKeyOfPrepared r) = true
        ↔ ∃ s ∈ pmStore, s.poNumber = r.poNumber ∧ s.itemNo = r.itemNo :=
      collectExistingPm_contains pmStore (pmDeduped jsDate rows) r hr
    constructor
    · intro hex
      have hc := hcont.mpr hex
      refine ⟨by rw [mkPmKeptLog, if_pos hc], ?_⟩
      intro hmem
      obtain ⟨r', hr', hre⟩ := List.mem_map.mp hmem
      have hr'2 : r' ∈ pmDeduped jsDate rows := List.mem_of_mem_filter hr'
      have hpred : (!(pmExisting jsDate pmStore rows).contains
          (pmKeyOfPrepared r')) = true := (List.mem_filter.mp hr').2
      have hpo : r'.poNumber = r.poNumber :=
        congrArg ProcuredMed.poNumber hre
      have hit : r'.itemNo = r.itemNo := congrArg ProcuredMed.itemNo hre
      have hkey : pmKeyOfPrepared r' = pmKeyOfPrepared r := by
        rw [pmKeyOfPrepared, pmKeyOfPrepared, hpo, hit]
      have her : r' = r := dedupScan_kept_key_inj pmKeyOfPrepared hr'2 hr hkey
      rw [her, hc] at hpred
      exact absurd hpred (by decide)
    · intro hnex
      have hc : (pmExisting jsDate pmStore rows).contains
          (pmKeyOfPrepared r) = false := by
        cases h : (pmExisting jsDate pmStore rows).contains
            (pmKeyOfPrepared r) with
        | false => rfl
        | true => exact absurd (hcont.mp h) hnex
      refine ⟨by rw [mkPmKeptLog,
        if_neg (fun hcc => Bool.noConfusion (hc ▸ hcc))], ?_⟩
      refine List.mem_map_of_mem pmToRecord (List.mem_filter.mpr ⟨hr, ?_⟩)
      show (!(pmExisting jsDate pmStore rows).contains (pmKeyOfPrepared r))
          = true
      rw [hc]
      rfl
  · intro mapped hprep
    have hst : (iarCommitPOST jsDate pmStore iarStore irows).2
        = iarStore ++ iarPayload pmStore iarStore mapped := by
      rw [iarCommitPOST, hprep]
      rfl
    refine ⟨hst, ?_⟩
    intro r hr
    have hinj : ∀ a ∈ iarDeduped mapped, ∀ b ∈ iarDeduped mapped,
        iarKeyOfPrepared a = iarKeyOfPrepared b → a = b :=
      fun a ha b hb hk => dedupScan_kept_key_inj iarKeyOfPrepared ha hb hk
    have hcont : (iarExisting iarStore mapped).contains
        (iarKeyOfPrepared r) = true
        ↔ ∃ s ∈ iarStore, s.iarNumber = r.iarNumber
            ∧ s.poNumber = r.poNumber ∧ s.itemNumber = r.itemNumber :=
      collectExistingIar_contains iarStore (iarDeduped mapped) hinj r hr
    constructor
    · intro hex
      have hc := hcont.mpr hex
      refine ⟨by rw [mkIarKeptLog, if_pos hc], ?_⟩
      intro hmem
      obtain ⟨r', hr', hre⟩ := List.mem_map.mp hmem
      have hr'2 : r' ∈ iarDeduped mapped := List.mem_of_mem_filter hr'
      have hpred : (!(iarExisting iarStore mapped).contains
          (iarKeyOfPrepared r')) = true := (List.mem_filter.mp hr').2
      have hia : r'.iarNumber = r.iarNumber :=
        congrArg IarRecord.iarNumber hre
      have hpo : r'.poNumber = r.poNumber :=
        congrArg IarRecord.poNumber hre
      have hit : r'.itemNumber = r.itemNumber :=
        congrArg IarRecord.itemNumber hre
      have hkey : iarKeyOfPrepared r' = iarKeyOfPrepared r := by
        rw [iarKeyOfPrepared, iarKeyOfPrepared, hia, hpo, hit]
      have her : r' = r :=
        dedupScan_kept_key_inj iarKeyOfPrepared hr'2 hr hkey
      rw [her, hc] at hpred
      exact absurd hpred (by decide)
    · intro hnex
      have hc : (iarExisting iarStore mapped).contains
          (iarKeyOfPrepared r) = false := by
        cases h : (iarExisting iarStore mapped).contains
            (iarKeyOfPrepared r) with
        | false => rfl
        | true => exact absurd (hcont.mp h) hnex
      refine ⟨by rw [mkIarKeptLog,
        if_neg (fun hcc => Bool.noConfusion (hc ▸ hcc))], ?_⟩
      refine List.mem_map_of_mem (iarToRecord (iarManu pmStore mapped))
        (List.mem_filter.mpr ⟨hr, ?_⟩)
      show (!(iarExisting iarStore mapped).contains (iarKeyOfPrepared r))
          = true
      rw [hc]
      rfl

/-- C3 instantiated on a concrete commit against matching stored rows. -/
theorem c3_already_exists_witness :
    (((pmCommitPOST jsDateCex [cexPmStoreRow2] [cexPmRow1, cexPmRow2]).2
        = [cexPmStoreRow2]
          ++ pmPayload jsDateCex [cexPmStoreRow2] [cexPmRow1, cexPmRow2]
      ∧ ∀ r ∈ pmDeduped jsDateCex [cexPmRow1, cexPmRow2],
        ((∃ s ∈ [cexPmStoreRow2], s.poNumber = r.poNumber
            ∧ s.itemNo = r.itemNo) →
          mkPmKeptLog
              (pmExisting jsDateCex [cexPmStoreRow2]
                [cexPmRow1, cexPmRow2]) r
              = ⟨r.rowIndex, r.poNumber, r.itemNo, .skipped,
                  some .alreadyExists⟩
            ∧ pmToRecord r
                ∉ pmPayload jsDateCex [cexPmStoreRow2]
                  [cexPmRow1, cexPmRow2])
        ∧ ((¬ ∃ s ∈ [cexPmStoreRow2], s.poNumber = r.poNumber
              ∧ s.itemNo = r.itemNo) →
          mkPmKeptLog
              (pmExisting jsDateCex [cexPmStoreRow2]
                [cexPmRow1, cexPmRow2]) r
              = ⟨r.rowIndex, r.poNumber, r.itemNo, .inserted, none⟩
            ∧ pmToRecord r
                ∈ pmPayload jsDateCex [cexPmStoreRow2]
                  [cexPmRow1, cexPmRow2]))
    ∧ (∀ mapped, prepareIarGo jsDateCex [cexIarRowD] 0 = .ok mapped →
        (iarCommitPOST jsDateCex [cexPmStoreRow2] [cexIarInserted]
              [cexIarRowD]).2
            = [cexIarInserted]
              ++ iarPayload [cexPmStoreRow2] [cexIarInserted] mapped
          ∧ ∀ r ∈ iarDeduped mapped,
            ((∃ s ∈ [cexIarInserted], s.iarNumber = r.iarNumber
                ∧ s.poNumber = r.poNumber
                ∧ s.itemNumber = r.itemNumber) →
              mkIarKeptLog (iarExisting [cexIarInserted] mapped) r
                  = ⟨r.rowIndex, r.iarNumber, r.poNumber, r.itemNumber,
                      .skipped, some .alreadyExists⟩
                ∧ iarToRecord (iarManu [cexPmStoreRow2] mapped) r
                    ∉ iarPayload [cexPmStoreRow2] [cexIarInserted] mapped)
            ∧ ((¬ ∃ s ∈ [cexIarInserted], s.iarNumber = r.iarNumber
                ∧ s.poNumber = r.poNumber
                ∧ s.itemNumber = r.itemNumber) →
              mkIarKeptLog (iarExisting [cexIarInserted] mapped) r
                  = ⟨r.rowIndex, r.iarNumber, r.poNumber, r.itemNumber,
                      .inserted, none⟩
                ∧ iarToRecord (iarManu [cexPmStoreRow2] mapped) r
                    ∈ iarPayload [cexPmStoreRow2] [cexIarInserted]
                      mapped))) :=
  c3_already_exists jsDateCex [cexPmStoreRow2] [cexIarInserted]
    [cexPmRow1, cexPmRow2] [cexIarRowD]

/-- C4 counterexample: the manufacturer lookup rebuilds the pair by
splitting the string key on `::`; for the stored PO number `a::1` the
split yields the wrong pair, the lookup misses, and the inserted record's
manufacturer is null although a line item matches (poNumber, itemNumber)
exactly, with manufacturer "M". -/
theorem c4_manufacturer_counterexample :
    (cexPmStoreRow.poNumber = jsTrim cexIarRowC.poNumber
      ∧ cexPmStoreRow.itemNo = cexIarRowC.itemNumber
      ∧ trimOrNull cexPmStoreRow.manufacturer = some "M")
    ∧ (iarCommitPOST jsDateCex [cexPmStoreRow] [] [cexIarRowC]).2
      = [⟨"i1", 100, "a::1", 2, 5, none, none, none, none, none⟩] := by
  decide

/-- C4 (amended): on the batch-upload path an inserted record's
manufacturer is derived, never user-entered (the commit schema carries no
manufacturer field): it equals the trimmed-or-null manufacturer of the
line item matching (poNumber, itemNumber), null when none matches —
provided no trimmed PO number contains a colon (so the key split recovers
the pair) and line items are unique per composite key. -/
theorem c4_manufacturer_amended (jsDate : String → Option Int)
    (pmStore : List ProcuredMed) (iarStore : List IarRecord)
    (rows : List IarInput) (rec : IarRecord)
    (hpo : ∀ r ∈ rows, ':' ∉ (jsTrim r.poNumber).data)
    (hstore : ∀ s ∈ pmStore, ∀ s' ∈ pmStore,
      s.poNumber = s'.poNumber → s.itemNo = s'.itemNo → s = s')
    (hrec : rec ∈ (iarCommitPOST jsDate pmStore iarStore rows).2)
    (hnew : rec ∉ iarStore) :
    rec.manufacturer = manuOfStore pmStore rec.poNumber rec.itemNumber := by
  cases hprep : prepareIarGo jsDate rows 0 with
  | error msg =>
    have h2 : (iarCommitPOST jsDate pmStore iarStore rows).2 = iarStore := by
      rw [iarCommitPOST, hprep]
    rw [h2] at hrec
    exact absurd hrec hnew
  | ok mapped =>
    have h2 : (iarCommitPOST jsDate pmStore iarStore rows).2
        = iarStore ++ iarPayload pmStore iarStore mapped := by
      rw [iarCommitPOST, hprep]
      rfl
    rw [h2] at hrec
    rcases List.mem_append.mp hrec with h3 | h3
    · exact absurd h3 hnew
    · obtain ⟨r, hrfilter, hre⟩ := List.mem_map.mp h3
      have hrded : r ∈ iarDeduped mapped := List.mem_of_mem_filter hrfilter
      have hman : rec.manufacturer
          = (List.lookup (pmKey r.poNumber r.itemNumber)
              (iarManu pmStore mapped)).join :=
        (congrArg IarRecord.manufacturer hre).symm
      have hpo2 : rec.poNumber = r.poNumber :=
        (congrArg IarRecord.poNumber hre).symm
      have hit2 : rec.itemNumber = r.itemNumber :=
        (congrArg IarRecord.itemNumber hre).symm
      rw [hman, hpo2, hit2]
      obtain ⟨-, hmemf, -⟩ := prepareIarGo_ok_facts jsDate rows 0 mapped hprep
      have hrm : r ∈ mapped := dedupScan_mem_right iarKeyOfPrepared hrded
      have hcf : ':' ∉ r.poNumber.data := by
        obtain ⟨r₀, hr₀, he⟩ := (hmemf r hrm).2
        have hqpo : r.poNumber = jsTrim r₀.poNumber := by rw [he]; rfl
        rw [hqpo]
        exact hpo r₀ hr₀
      rw [manuOfStore]
      cases hfind : pmStore.find? (fun s =>
          s.poNumber == r.poNumber && s.itemNo == r.itemNumber) with
      | none =>
        have hlk : List.lookup (pmKey r.poNumber r.itemNumber)
            (iarManu pmStore mapped) = none := by
          apply lookup_none_of
          intro p hp
          obtain ⟨s, hs, -, hpe⟩ := (buildManuMap_mem pmStore
            ((uniquePoItems (iarDeduped mapped)).map splitPoItemPair)
            p).mp hp
          rw [hpe]
          intro hpk
          have hpk2 : pmKey s.poNumber s.itemNo
              = pmKey r.poNumber r.itemNumber := hpk
          obtain ⟨hpoe, hite⟩ := pmKey_inj hpk2
          have hno := List.find?_eq_none.mp hfind s hs
          apply hno
          simp [hpoe, hite]
        rw [hlk]
        rfl
      | some s =>
        have hsmem := List.mem_of_find?_eq_some hfind
        have hspred := List.find?_some hfind
        simp only [Bool.and_eq_true, beq_iff_eq] at hspred
        have hlk : List.lookup (pmKey r.poNumber r.itemNumber)
            (iarManu pmStore mapped)
            = some (trimOrNull s.manufacturer) := by
          apply lookup_all_same
          · intro p hp hpk
            obtain ⟨s', hs', -, hpe⟩ := (buildManuMap_mem pmStore
              ((uniquePoItems (iarDeduped mapped)).map splitPoItemPair)
              p).mp hp
            rw [hpe] at hpk ⊢
            have hpk2 : pmKey s'.poNumber s'.itemNo
                = pmKey r.poNumber r.itemNumber := hpk
            obtain ⟨hpoe, hite⟩ := pmKey_inj hpk2
            have hse : s' = s := hstore s' hs' s hsmem
              (by rw [hpoe, hspred.1]) (by rw [hite, hspred.2])
            rw [hse]
          · refine ⟨(pmKey s.poNumber s.itemNo,
              trimOrNull s.manufacturer), ?_, ?_⟩
            · apply (buildManuMap_mem pmStore
                ((uniquePoItems (iarDeduped mapped)).map splitPoItemPair)
                _).mpr
              refine ⟨s, hsmem,
                ⟨splitPoItemPair (pmKey r.poNumber r.itemNumber),
                  ?_, ?_⟩, rfl⟩
              · apply List.mem_map_of_mem splitPoItemPair
                exact (uniquePoItems_mem (iarDeduped mapped) _).mpr
                  ⟨r, hrded, rfl⟩
              · rw [splitPoItemPair_pmKey r.itemNumber hcf]
                simp [pairMatchesPm, hspred.1, hspred.2]
            · show pmKey s.poNumber s.itemNo
                = pmKey r.poNumber r.itemNumber
              rw [hspred.1, hspred.2]
        rw [hlk]
        rfl

/-- C4 amended theorem instantiated on a concrete commit whose matching
line item has the untrimmed manufacturer " M ". -/
theorem c4_manufacturer_amended_witness :
    ((∀ r ∈ [cexIarRowD], ':' ∉ (jsTrim r.poNumber).data)
      ∧ (∀ s ∈ [cexPmStoreRow2], ∀ s' ∈ [cexPmStoreRow2],
          s.poNumber = s'.poNumber → s.itemNo = s'.itemNo → s = s')
      ∧ cexIarInserted
          ∈ (iarCommitPOST jsDateCex [cexPmStoreRow2] [] [cexIarRowD]).2
      ∧ cexIarInserted ∉ ([] : List IarRecord))
    ∧ cexIarInserted.manufacturer
      = manuOfStore [cexPmStoreRow2] cexIarInserted.poNumber
          cexIarInserted.itemNumber :=
  ⟨⟨by decide, by decide, by decide, by decide⟩,
    c4_manufacturer_amended jsDateCex [cexPmStoreRow2] [] [cexIarRowD]
      cexIarInserted (by decide) (by decide) (by decide) (by decide)⟩

/-- C5: if a submitted IAR row's inspection date, or non-empty expiration
date, fails the strict commit-time parse, the whole commit aborts with a
client error whose message names the offending row position (the message
renders the row's index plus the 2-row header offset), and the persisted
store is unchanged.  Stated for the first failing row, whose message is the
one returned. -/
theorem c5_date_failfast (jsDate : String → Option Int)
    (pmStore : List ProcuredMed) (iarStore : List IarRecord)
    (rows : List IarInput) (i : Nat) (hi : i < rows.length)
    (hbad : iarRowBadDate jsDate (rows.get ⟨i, hi⟩) = true)
    (hfirst : ∀ j (hj : j < rows.length), j < i →
      iarRowBadDate jsDate (rows.get ⟨j, hj⟩) = false) :
    (iarCommitPOST jsDate pmStore iarStore rows).1
        = .badRequest (iarBadMsgOf jsDate (rows.get ⟨i, hi⟩) i)
      ∧ (iarCommitPOST jsDate pmStore iarStore rows).2 = iarStore := by
  have herr := prepareIarGo_firstError jsDate rows i hi 0 hbad hfirst
  rw [Nat.zero_add] at herr
  constructor
  · rw [iarCommitPOST, herr]
  · rw [iarCommitPOST, herr]

/-- C5 instantiated: the second row's inspection date is unparsable, the
commit 400s with the row-1 message, and the store is unchanged. -/
theorem c5_date_failfast_witness :
    (1 < [cexIarRowD, cexIarRowBadDate].length
      ∧ iarRowBadDate jsDateCex cexIarRowBadDate = true)
    ∧ (iarCommitPOST jsDateCex [cexPmStoreRow2] [cexIarInserted]
          [cexIarRowD, cexIarRowBadDate]).1
        = .badRequest (iarBadMsgOf jsDateCex cexIarRowBadDate 1)
      ∧ (iarCommitPOST jsDateCex [cexPmStoreRow2] [cexIarInserted]
          [cexIarRowD, cexIarRowBadDate]).2 = [cexIarInserted] :=
  ⟨⟨by decide, by decide⟩,
    c5_date_failfast jsDateCex [cexPmStoreRow2] [cexIarInserted]
      [cexIarRowD, cexIarRowBadDate] 1 (by decide) (by decide)
      (by decide)⟩

end Dpri
